import Mathlib

/-!
Verification of the Commander Map deck-clustering pipeline.

This file gives a shallow embedding, in Lean 4, of the domain services of the
Commander Map pipeline (`commander_map/domain/services` and
`commander_map/domain/entities` in the repository) and proves or refutes the
frozen behavioural claims about them.

Modelling conventions:
* pandas DataFrames become lists of row structures; numpy arrays become
  `List ℚ` / `List (List ℚ)`; floating point numbers become exact rationals,
  with IEEE `NaN` rendered as `Option.none` where the code can produce it;
* numpy's `round` (round half to even) is modelled by `roundHE`;
* randomness (`np.random.uniform`, `np.random.choice`) is threaded through as
  explicit oracle parameters; a claim that needs the documented range of a
  draw takes that range as a hypothesis on the oracle;
* code that can raise (`ValueError`, `KeyError`, pandas alignment errors)
  returns `Except String` or `Option`.
-/

namespace CommanderMap

/-- Round half to even on exact rationals: the rounding mode used by
`numpy.round` / `pandas.Series.round(0)`. -/
def roundHE (q : ℚ) : ℤ :=
  if q - ⌊q⌋ < 1/2 then ⌊q⌋
  else if 1/2 < q - ⌊q⌋ then ⌊q⌋ + 1
  else if ⌊q⌋ % 2 = 0 then ⌊q⌋ else ⌊q⌋ + 1

theorem roundHE_nonneg (q : ℚ) (hq : 0 ≤ q) : 0 ≤ roundHE q := by
  have hf : (0:ℤ) ≤ ⌊q⌋ := Int.floor_nonneg.mpr hq
  unfold roundHE
  split_ifs <;> omega

theorem roundHE_le_add_half (q : ℚ) : (roundHE q : ℚ) ≤ q + 1/2 := by
  have hf : (⌊q⌋ : ℚ) ≤ q := Int.floor_le q
  unfold roundHE
  split_ifs with h1 h2 h3 <;> push_cast <;> linarith

theorem roundHE_le_of_le (q : ℚ) (b : ℤ) (hq : q ≤ b) : roundHE q ≤ b := by
  have h := roundHE_le_add_half q
  have : (roundHE q : ℚ) ≤ (b : ℚ) + 1/2 := by linarith
  have : (roundHE q : ℚ) < (b : ℚ) + 1 := by linarith
  exact_mod_cast Int.lt_add_one_iff.mp (by exact_mod_cast this)

instance {ε α : Type} [DecidableEq ε] [DecidableEq α] : DecidableEq (Except ε α) :=
  fun a b =>
    match a, b with
    | .ok x, .ok y => decidable_of_iff (x = y) (by simp)
    | .error x, .error y => decidable_of_iff (x = y) (by simp)
    | .ok _, .error _ => isFalse (by simp)
    | .error _, .ok _ => isFalse (by simp)

/-- Map a fallible function over a list, failing if any element fails
(the `Option`-monad `mapM`, written out so that its length behaviour is easy
to reason about). -/
def optMapList (f : α → Option β) : List α → Option (List β)
  | [] => some []
  | a :: as =>
    match f a, optMapList f as with
    | some b, some bs => some (b :: bs)
    | _, _ => none

theorem optMapList_length (f : α → Option β) :
    ∀ (l : List α) (bs : List β), optMapList f l = some bs → bs.length = l.length := by
  intro l
  induction l with
  | nil => intro bs h; simp [optMapList] at h; simp [← h]
  | cons a as ih =>
    intro bs h
    simp only [optMapList] at h
    cases hfa : f a with
    | none => rw [hfa] at h; simp at h
    | some b =>
      rw [hfa] at h
      cases hrec : optMapList f as with
      | none => rw [hrec] at h; simp at h
      | some bs0 =>
        rw [hrec] at h
        simp at h
        subst h
        simp [ih bs0 hrec]

theorem optMapList_mem_forward (f : α → Option β) :
    ∀ (l : List α) (out : List β), optMapList f l = some out →
      ∀ a ∈ l, ∃ y ∈ out, f a = some y := by
  intro l
  induction l with
  | nil => intro out _ a ha; simp at ha
  | cons a0 as ih =>
    intro out hout a ha
    simp only [optMapList] at hout
    cases hfa : f a0 with
    | none => rw [hfa] at hout; simp at hout
    | some b =>
      rw [hfa] at hout
      cases hrec : optMapList f as with
      | none => rw [hrec] at hout; simp at hout
      | some bs =>
        rw [hrec] at hout
        simp only [Option.some.injEq] at hout
        subst hout
        rcases List.mem_cons.mp ha with rfl | ha2
        · exact ⟨b, by simp, hfa⟩
        · obtain ⟨y, hy, hfy⟩ := ih bs hrec a ha2
          exact ⟨y, by simp [hy], hfy⟩

theorem optMapList_mem_backward (f : α → Option β) :
    ∀ (l : List α) (out : List β), optMapList f l = some out →
      ∀ y ∈ out, ∃ a ∈ l, f a = some y := by
  intro l
  induction l with
  | nil =>
    intro out hout y hy
    simp only [optMapList, Option.some.injEq] at hout
    subst hout
    simp at hy
  | cons a0 as ih =>
    intro out hout y hy
    simp only [optMapList] at hout
    cases hfa : f a0 with
    | none => rw [hfa] at hout; simp at hout
    | some b =>
      rw [hfa] at hout
      cases hrec : optMapList f as with
      | none => rw [hrec] at hout; simp at hout
      | some bs =>
        rw [hrec] at hout
        simp only [Option.some.injEq] at hout
        subst hout
        rcases List.mem_cons.mp hy with rfl | hy2
        · exact ⟨a0, by simp, hfa⟩
        · obtain ⟨a, ha, hfy⟩ := ih bs hrec y hy2
          exact ⟨a, by simp [ha], hfy⟩

theorem optMapList_isSome (f : α → Option β) :
    ∀ (l : List α), (∀ a ∈ l, (f a).isSome) → ∃ out, optMapList f l = some out := by
  intro l
  induction l with
  | nil => exact fun _ => ⟨[], rfl⟩
  | cons a as ih =>
    intro h
    obtain ⟨b, hb⟩ := Option.isSome_iff_exists.mp (h a (by simp))
    obtain ⟨out, hout⟩ := ih (fun x hx => h x (by simp [hx]))
    refine ⟨b :: out, ?_⟩
    simp only [optMapList]
    rw [hb, hout]

/-! ### C7: aggregate construction consistency check

Embeds `CommanderMapAggregate._validate_consistency`
(`domain/entities/commander_map.py`).  The three optional components are
rendered by their row/element counts; `None` components skip their check
exactly as in the source. -/

/-- Shallow embedding of `CommanderMapAggregate._validate_consistency`, which
`__post_init__` runs at construction time.  Arguments are the row count of
`decklist_matrix`, the row count of `commander_decks` and the size of
`cdecks`, each `none` when the corresponding component is absent. -/
def validate_consistency (matrixRows dfRows cdecksLen : Option ℕ) : Except String Unit :=
  match matrixRows, dfRows with
  | some m, some d =>
    if m ≠ d then
      .error "Decklist matrix and commander df must have the same number of elements."
    else
      match cdecksLen with
      | some c =>
        if m ≠ c then
          .error "Decklist matrix, commander df, and cdecks must have same number of elements."
        else .ok ()
      | none => .ok ()
  | _, _ => .ok ()

/-- C7: for every (decklist matrix, deck-metadata table, deck-entity
dictionary) triple, construction of the `CommanderMapAggregate` succeeds
exactly when the matrix row count, the metadata row count and the entity
count agree, and any mismatch among the three counts raises a consistency
error at construction time. -/
theorem C7_aggregate_consistency (m d c : ℕ) :
    validate_consistency (some m) (some d) (some c) = .ok () ↔ m = d ∧ d = c := by
  simp only [validate_consistency]
  split_ifs with h1 h2 <;> simp_all

/-! ### C4: embedding-stage fallback on reducer failure

Embeds `DimensionalityReductionService.reduce` / `_umap_reduce`
(`domain/services/dimensionality_reduction_service.py`).  The call
`embedder.fit_transform(data)` is an external library call; it is rendered as
an oracle argument `fitResult : Except String (List (List ℚ))` giving either
the embedding it returned or the exception it raised.  The fallback draw
`np.random.uniform(size=(n_samples, n_dims))` is rendered by the oracle
`rand : ℕ → ℕ → ℚ` giving the entry drawn at each position. -/

/-- Shallow embedding of `DimensionalityReductionService._umap_reduce`:
return the reducer output, or on any reducer exception a fresh uniform-random
matrix of shape `(nRows, n_dims)`. -/
def umap_reduce (nRows n_dims : ℕ) (fitResult : Except String (List (List ℚ)))
    (rand : ℕ → ℕ → ℚ) : List (List ℚ) :=
  match fitResult with
  | .ok e => e
  | .error _ => (List.range nRows).map (fun i => (List.range n_dims).map (fun j => rand i j))

/-- Shallow embedding of `DimensionalityReductionService.reduce`: only the
method name `UMAP` is implemented. -/
def reduce (method : String) (nRows n_dims : ℕ)
    (fitResult : Except String (List (List ℚ))) (rand : ℕ → ℕ → ℚ) :
    Except String (List (List ℚ)) :=
  if method ≠ "UMAP" then .error "Only UMAP is implemented."
  else .ok (umap_reduce nRows n_dims fitResult rand)

/-- C4: if the underlying dimensionality-reduction algorithm raises, the
embedding stage does not propagate the exception: `reduce` still succeeds and
returns a uniform-random embedding in `[0,1)^target_dims` with one row per
input row. -/
theorem C4_reduce_fallback (nRows n_dims : ℕ) (msg : String) (rand : ℕ → ℕ → ℚ)
    (hrand : ∀ i j, 0 ≤ rand i j ∧ rand i j < 1) :
    ∃ M, reduce "UMAP" nRows n_dims (.error msg) rand = .ok M ∧
      M.length = nRows ∧ (∀ row ∈ M, row.length = n_dims) ∧
      ∀ row ∈ M, ∀ x ∈ row, 0 ≤ x ∧ x < 1 := by
  refine ⟨umap_reduce nRows n_dims (.error msg) rand, by simp [reduce], ?_, ?_, ?_⟩
  · simp [umap_reduce]
  · intro row hrow
    simp only [umap_reduce, List.mem_map] at hrow
    obtain ⟨i, _, hi⟩ := hrow
    simp [← hi]
  · intro row hrow x hx
    simp only [umap_reduce, List.mem_map] at hrow
    obtain ⟨i, _, hi⟩ := hrow
    rw [← hi] at hx
    simp only [List.mem_map] at hx
    obtain ⟨j, _, hj⟩ := hx
    rw [← hj]
    exact hrand i j

/-- Witness for C4 at a concrete input: a failing reducer on a 2-row matrix
with 2 target dimensions and the constant draw 1/2. -/
theorem C4_reduce_fallback_witness :
    ∃ M, reduce "UMAP" 2 2 (.error "embedding failed") (fun _ _ => 1/2) = .ok M ∧
      M.length = 2 ∧ (∀ row ∈ M, row.length = 2) ∧
      ∀ row ∈ M, ∀ x ∈ row, 0 ≤ x ∧ x < 1 :=
  C4_reduce_fallback 2 2 "embedding failed" (fun _ _ => 1/2) (by norm_num)

/-! ### C1 / C10: unclustered-point reassignment

Embeds `ClusteringService.assign_unclustered`
(`domain/services/clustering_service.py`).  Cluster labels are a `List ℤ`
with sentinel `-1`; the clustering embedding is a `List (List ℚ)` row per
deck.  `scipy.spatial.KDTree.query` is embedded as exact nearest-neighbour
search under squared Euclidean distance (ties broken by lower index);
`np.bincount(row).argmax()` is embedded by `bincountArgmax`, which fails
(`none`) exactly where numpy raises: on an empty row (`argmax` of an empty
array) or on a negative entry (`bincount` rejects negatives). -/

/-- Number of sentinel (`-1`) labels: `np.sum(cluster_labels == -1)`. -/
def countSentinel (labels : List ℤ) : ℕ := labels.countP (fun l => l == -1)

/-- Indices of entries satisfying `p`, starting the count at `i`
(`np.where(...)` on a boolean mask). -/
def idxWhereAux {α : Type} (p : α → Bool) : ℕ → List α → List ℕ
  | _, [] => []
  | i, x :: xs => if p x then i :: idxWhereAux p (i + 1) xs else idxWhereAux p (i + 1) xs

/-- Indices of entries of `xs` satisfying `p`. -/
def idxWhere {α : Type} (p : α → Bool) (xs : List α) : List ℕ := idxWhereAux p 0 xs

/-- Squared Euclidean distance of two coordinate rows. -/
def sqDist (a b : List ℚ) : ℚ := ((a.zip b).map (fun p => (p.1 - p.2) ^ 2)).sum

/-- Nearest-neighbour ordering on indices into `pts`, by squared distance to
the query point `q`, ties broken by lower index. -/
def nnLe (pts : List (List ℚ)) (q : List ℚ) (i j : ℕ) : Prop :=
  sqDist (pts.getD i []) q < sqDist (pts.getD j []) q ∨
    (sqDist (pts.getD i []) q = sqDist (pts.getD j []) q ∧ i ≤ j)

instance (pts : List (List ℚ)) (q : List ℚ) : DecidableRel (nnLe pts q) := fun i j => by
  unfold nnLe; infer_instance

/-- Embedding of `KDTree(pts).query(q, k)`: positions (into `pts`) of the `k`
nearest points to `q`. -/
def kdtreeQueryOne (pts : List (List ℚ)) (q : List ℚ) (k : ℕ) : List ℕ :=
  ((List.range pts.length).insertionSort (nnLe pts q)).take k

/-- Embedding of `np.bincount(xs).argmax()`: the smallest value of maximal
multiplicity.  `none` where numpy raises: empty input or a negative entry. -/
def bincountArgmax (xs : List ℤ) : Option ℕ :=
  if xs = [] then none
  else if xs.all (fun x => decide (0 ≤ x)) then
    let ns := xs.map Int.toNat
    let m := ns.foldl max 0
    some ((List.range (m + 1)).foldl
      (fun best v => if ns.count best < ns.count v then v else best) 0)
  else none

/-- Write the voted assignments back over a copy of the labels:
entry `i` becomes its looked-up assignment when `i` was unclustered and stays
unchanged otherwise (`result = cluster_labels.copy();
result[unclustered] = cluster_assignments`). -/
def applyAssignmentsAux (pairs : List (ℕ × ℕ)) : ℕ → List ℤ → List ℤ
  | _, [] => []
  | i, x :: xs =>
    (match pairs.lookup i with
     | some v => (v : ℤ)
     | none => x) :: applyAssignmentsAux pairs (i + 1) xs

/-- Updated label array: `unclustered` positions get their entries of `asgn`,
all other positions keep their previous label. -/
def applyAssignments (labels : List ℤ) (unclustered : List ℕ) (asgn : List ℕ) : List ℤ :=
  applyAssignmentsAux (unclustered.zip asgn) 0 labels

/-- Main branch of `ClusteringService.assign_unclustered` (some labels are
sentinel, some are not): query the `k` nearest clustered points for each
unclustered point, take the first-occurring majority label among them, and
write the votes over a copy of the label array. -/
def clusteredIdx (labels : List ℤ) : List ℕ := idxWhere (fun l => l != -1) labels

def unclusteredIdx (labels : List ℤ) : List ℕ := idxWhere (fun l => l == -1) labels

/-- Reduced neighbour count: `if clustered_embedding.shape[0] < n_neighbors + 1:
n_neighbors = clustered_embedding.shape[0] - 1`. -/
def reducedNeighborCount (clusteredCount n_neighbors : ℕ) : ℕ :=
  if clusteredCount < n_neighbors + 1 then clusteredCount - 1 else n_neighbors

/-- Labels of the `k` nearest clustered neighbours of the unclustered point at
row `u` (`cluster_labels[clustered[indices]]`). -/
def neighborVoteLabels (labels : List ℤ) (emb : List (List ℚ)) (n_neighbors : ℕ)
    (u : ℕ) : List ℤ :=
  (kdtreeQueryOne ((clusteredIdx labels).map (fun i => emb.getD i []))
      (emb.getD u [])
      (reducedNeighborCount (clusteredIdx labels).length n_neighbors)).map
    (fun j => labels.getD ((clusteredIdx labels).getD j 0) 0)

def assign_core (labels : List ℤ) (emb : List (List ℚ)) (n_neighbors : ℕ) :
    Option (List ℤ) :=
  match optMapList (fun u => bincountArgmax (neighborVoteLabels labels emb n_neighbors u))
      (unclusteredIdx labels) with
  | none => none
  | some asgn => some (applyAssignments labels (unclusteredIdx labels) asgn)

/-- Shallow embedding of `ClusteringService.assign_unclustered`. -/
def assign_unclustered (labels : List ℤ) (emb : List (List ℚ)) (n_neighbors : ℕ) :
    Option (List ℤ) :=
  if countSentinel labels = 0 then some labels
  else if countSentinel labels = labels.length then
    some (List.replicate labels.length 0)
  else assign_core labels emb n_neighbors

theorem idxWhereAux_mem (p : ℤ → Bool) (xs : List ℤ) :
    ∀ (i k : ℕ), k < xs.length → p (xs.getD k 0) = true →
      (i + k) ∈ idxWhereAux p i xs := by
  induction xs with
  | nil => intro i k hk; simp at hk
  | cons x rest ih =>
    intro i k hk hp
    cases k with
    | zero =>
      simp only [List.getD_cons_zero] at hp
      simp [idxWhereAux, hp]
    | succ k0 =>
      simp only [List.getD_cons_succ] at hp
      have hk0 : k0 < rest.length := by simpa using hk
      have := ih (i + 1) k0 hk0 hp
      have harith : i + 1 + k0 = i + (k0 + 1) := by omega
      rw [harith] at this
      unfold idxWhereAux
      split_ifs <;> simp [this]

theorem lookup_zip_isSome :
    ∀ (ks vs : List ℕ) (k : ℕ), k ∈ ks → ks.length = vs.length →
      ((ks.zip vs).lookup k).isSome = true := by
  intro ks
  induction ks with
  | nil => intro vs k hmem; simp at hmem
  | cons a as ih =>
    intro vs k hmem hlen
    cases vs with
    | nil => simp at hlen
    | cons b bs =>
      simp only [List.zip_cons_cons, List.lookup]
      rcases List.mem_cons.mp hmem with h | h
      · subst h; simp
      · by_cases hka : (k == a) = true
        · simp [hka]
        · simp only [Bool.not_eq_true] at hka
          simp only [hka]
          exact ih bs k h (by simpa using hlen)

theorem applyAssignmentsAux_ne_sentinel (pairs : List (ℕ × ℕ)) (xs : List ℤ) (i : ℕ)
    (H : ∀ k, xs.getD k 0 = -1 → (pairs.lookup (i + k)).isSome = true) :
    ∀ l ∈ applyAssignmentsAux pairs i xs, l ≠ -1 := by
  induction xs generalizing i with
  | nil => intro l hl; simp [applyAssignmentsAux] at hl
  | cons x rest ih =>
    intro l hl
    simp only [applyAssignmentsAux, List.mem_cons] at hl
    rcases hl with hl | hl
    · subst hl
      cases hlk : pairs.lookup i with
      | some v =>
        simp only [hlk]
        have h0 : (0:ℤ) ≤ (v : ℤ) := Int.natCast_nonneg v
        omega
      | none =>
        simp only [hlk]
        intro hx
        have := H 0 (by simpa using hx)
        rw [show i + 0 = i by omega, hlk] at this
        simp at this
    · refine ih (i + 1) (fun k hk => ?_) l hl
      have := H (k + 1) (by simpa using hk)
      rw [show i + (k + 1) = i + 1 + k by omega] at this
      exact this

/-- C1: the unclustered-reassignment operation never leaves (or introduces) a
sentinel label.  When every label is the sentinel, every deck is assigned
cluster 0; when no label is the sentinel, the labels are returned unchanged;
and whenever the operation returns a label array at all, none of its entries
is `-1`. -/
theorem C1_assign_unclustered_no_sentinel (labels : List ℤ) (emb : List (List ℚ))
    (n_neighbors : ℕ) :
    (countSentinel labels = 0 →
      assign_unclustered labels emb n_neighbors = some labels ∧ ∀ l ∈ labels, l ≠ -1) ∧
    (countSentinel labels = labels.length → 0 < labels.length →
      assign_unclustered labels emb n_neighbors =
        some (List.replicate labels.length 0)) ∧
    (∀ res, assign_unclustered labels emb n_neighbors = some res → ∀ l ∈ res, l ≠ -1) := by
  refine ⟨?_, ?_, ?_⟩
  · intro h0
    refine ⟨by simp [assign_unclustered, h0], ?_⟩
    intro l hl
    have := List.countP_eq_zero.mp h0 l hl
    simpa using this
  · intro hall hpos
    have h0 : countSentinel labels ≠ 0 := by omega
    unfold assign_unclustered
    rw [if_neg h0, if_pos hall]
  · intro res hres l hl
    unfold assign_unclustered at hres
    split_ifs at hres with h0 hall
    · obtain rfl : labels = res := by simpa using hres
      have := List.countP_eq_zero.mp h0 l hl
      simpa using this
    · obtain rfl : List.replicate labels.length (0:ℤ) = res := by simpa using hres
      have := List.eq_of_mem_replicate hl
      omega
    · unfold assign_core at hres
      split at hres
      · simp at hres
      next asgn hasgn =>
        obtain rfl : applyAssignments labels (unclusteredIdx labels) asgn
            = res := by simpa using hres
        refine applyAssignmentsAux_ne_sentinel _ labels 0 (fun k hk => ?_) l hl
        have hklen : k < labels.length := by
          by_contra hge
          rw [List.getD_eq_default] at hk
          · exact absurd hk (by norm_num)
          · omega
        have hmem : (0 + k) ∈ unclusteredIdx labels :=
          idxWhereAux_mem _ labels 0 k hklen (by simp only [beq_iff_eq]; exact hk)
        rw [Nat.zero_add] at hmem
        have hlen := optMapList_length _ _ _ hasgn
        rw [Nat.zero_add]
        exact lookup_zip_isSome _ _ _ hmem hlen.symm

/-- Witness for C1 at concrete inputs: a sentinel-free array is returned
unchanged, an all-sentinel array maps to all-zero labels, and a mixed array
(one sentinel point at coordinate 0, clustered points at 1 and 5) yields an
array with no sentinel. -/
theorem C1_assign_unclustered_witness :
    assign_unclustered [2, 3] [] 50 = some [2, 3] ∧
    assign_unclustered [-1, -1] [] 50 = some [0, 0] ∧
    (∀ l ∈ ([0, 0, 1] : List ℤ), l ≠ -1) :=
  ⟨((C1_assign_unclustered_no_sentinel [2, 3] [] 50).1 (by decide)).1,
   (C1_assign_unclustered_no_sentinel [-1, -1] [] 50).2.1 (by decide) (by decide),
   (C1_assign_unclustered_no_sentinel [-1, 0, 1] [[0], [1], [5]] 50).2.2 [0, 0, 1]
     (by with_unfolding_all decide)⟩

/-! ### C10: assign_unclustered never mutates its input array

To state the frame property, the numpy arrays are given object identity: a
store holds every live array, an array reference is an index into the store,
and the three code paths of `assign_unclustered` are transcribed against that
store.  `cluster_labels.copy()` and `np.zeros(...)` allocate fresh arrays;
the fancy-indexing write `result[unclustered] = cluster_assignments` writes
through the `result` reference only.  The path returning the input array
unchanged returns the input reference itself. -/

/-- Store of integer arrays; a reference is an index into the heap. -/
structure ArrStore where
  heap : List (List ℤ)

/-- Allocate a fresh array holding `v`, returning its reference. -/
def allocArr (s : ArrStore) (v : List ℤ) : ℕ × ArrStore :=
  (s.heap.length, ⟨s.heap ++ [v]⟩)

/-- Contents of the array behind reference `r`. -/
def readArr (s : ArrStore) (r : ℕ) : List ℤ := s.heap.getD r []

/-- Overwrite the array behind reference `r` with `v`. -/
def writeArr (s : ArrStore) (r : ℕ) (v : List ℤ) : ArrStore := ⟨s.heap.set r v⟩

/-- Store-level transcription of `ClusteringService.assign_unclustered`:
`lr` is the caller's label array.  Path 1 (no sentinels) returns `lr` itself;
path 2 allocates `np.zeros(len(labels))`; path 3 allocates
`cluster_labels.copy()` and then writes the votes through that fresh
reference. -/
def assign_unclustered_store (s : ArrStore) (lr : ℕ) (emb : List (List ℚ))
    (n_neighbors : ℕ) : Option (ℕ × ArrStore) :=
  if countSentinel (readArr s lr) = 0 then some (lr, s)
  else if countSentinel (readArr s lr) = (readArr s lr).length then
    some (allocArr s (List.replicate (readArr s lr).length 0))
  else
    match assign_core (readArr s lr) emb n_neighbors with
    | none => none
    | some newContents =>
      some ((allocArr s (readArr s lr)).1,
        writeArr (allocArr s (readArr s lr)).2 (allocArr s (readArr s lr)).1 newContents)

theorem readArr_alloc_old (s : ArrStore) (v : List ℤ) (r : ℕ) (hr : r < s.heap.length) :
    readArr (allocArr s v).2 r = readArr s r := by
  simp only [readArr, allocArr]
  rw [List.getD_eq_getElem?_getD, List.getD_eq_getElem?_getD,
    List.getElem?_append_left hr]

theorem readArr_write_other (s : ArrStore) (r r2 : ℕ) (v : List ℤ) (hne : r2 ≠ r) :
    readArr (writeArr s r v) r2 = readArr s r2 := by
  simp only [readArr, writeArr]
  rw [List.getD_eq_getElem?_getD, List.getD_eq_getElem?_getD,
    List.getElem?_set_ne (fun h => hne h.symm)]

/-- C10: `assign_unclustered` never mutates the caller's label array.  After
any successful call the contents behind the caller's reference are unchanged,
and the returned reference is the caller's own array exactly in the
zero-sentinel case (where it is returned unmodified); in every other case the
result is a freshly allocated array. -/
theorem C10_assign_unclustered_frame (s : ArrStore) (lr : ℕ) (emb : List (List ℚ))
    (n_neighbors : ℕ) (hlr : lr < s.heap.length) :
    (∀ r s1, assign_unclustered_store s lr emb n_neighbors = some (r, s1) →
      readArr s1 lr = readArr s lr ∧
        (r = lr ↔ countSentinel (readArr s lr) = 0)) ∧
    (countSentinel (readArr s lr) = 0 →
      assign_unclustered_store s lr emb n_neighbors = some (lr, s)) := by
  constructor
  · intro r s1 hcall
    unfold assign_unclustered_store at hcall
    split_ifs at hcall with h0 hall
    · obtain ⟨rfl, rfl⟩ : lr = r ∧ s = s1 := by simpa using hcall
      exact ⟨rfl, by simpa using h0⟩
    · obtain ⟨hr, hs⟩ : s.heap.length = r ∧ _ = s1 := by
        simpa [allocArr] using hcall
      subst hr
      refine ⟨?_, by constructor <;> intro h <;> omega⟩
      rw [← hs]
      exact readArr_alloc_old s _ lr hlr
    · split at hcall
      · simp at hcall
      next newContents hcore =>
        obtain ⟨hr, hs⟩ : (allocArr s (readArr s lr)).1 = r ∧ _ = s1 := by
          simpa using hcall
        subst hr
        have hrlen : (allocArr s (readArr s lr)).1 = s.heap.length := rfl
        refine ⟨?_, by rw [hrlen]; constructor <;> intro h <;> omega⟩
        rw [← hs]
        rw [readArr_write_other _ _ _ _ (by rw [hrlen]; omega)]
        exact readArr_alloc_old s _ lr hlr
  · intro h0
    simp [assign_unclustered_store, h0]

/-- Witness for C10 at a concrete store: a two-array store whose second array
is the labels `[-1, 0, 1]`; the call leaves it unchanged, and the
zero-sentinel call on the first array returns that same array. -/
theorem C10_assign_unclustered_frame_witness :
    (∀ r s1,
      assign_unclustered_store ⟨[[5, 6], [-1, 0, 1]]⟩ 1 [[0], [1], [5]] 50 = some (r, s1) →
      readArr s1 1 = readArr ⟨[[5, 6], [-1, 0, 1]]⟩ 1 ∧
        (r = 1 ↔ countSentinel (readArr ⟨[[5, 6], [-1, 0, 1]]⟩ 1) = 0)) ∧
    assign_unclustered_store ⟨[[5, 6], [-1, 0, 1]]⟩ 0 [[0], [1], [5]] 50 =
      some (0, ⟨[[5, 6], [-1, 0, 1]]⟩) :=
  ⟨(C10_assign_unclustered_frame ⟨[[5, 6], [-1, 0, 1]]⟩ 1 [[0], [1], [5]] 50 (by decide)).1,
   (C10_assign_unclustered_frame ⟨[[5, 6], [-1, 0, 1]]⟩ 0 [[0], [1], [5]] 50 (by decide)).2
     (by decide)⟩

/-! ### C8 / C9: disconnected-point repair

Embeds `ClusteringService.handle_disconnected_points` and
`ClusteringService._jaccard` (`domain/services/clustering_service.py`).
An embedding row is a `List (Option ℚ)` with `none` for an IEEE `NaN`
coordinate.  The three random draws of the source are oracle parameters:
`picks` for `np.random.choice(connected_idx)` (the draw at loop step `j`
selects position `picks j` in the connected-index list), `uniforms`/`signs`
for the single jitter draw
`np.random.uniform(0.001, 0.002, n_dims) * np.random.choice([1,-1], n_dims)`,
and `fullRand` for the all-disconnected fallback
`np.random.uniform(size=embedding.shape)`. -/

/-- Entity `CommanderDeck` as used by the repair routine: the commander name
and the card list. -/
structure CDeck where
  commander : String
  cards : List String
deriving DecidableEq

/-- Shallow embedding of `ClusteringService._jaccard`: Jaccard similarity of
two card lists viewed as sets. -/
def jaccard (list1 list2 : List String) : ℚ :=
  if ((list1.dedup ++ list2.dedup).dedup).length > 0 then
    ((list1.dedup.filter (fun c => list2.dedup.contains c)).length : ℚ) /
      ((list1.dedup ++ list2.dedup).dedup).length
  else 0

/-- First index of the maximum of a rational list (`np.argmax`). -/
def argmaxFirstQAux : List ℚ → ℕ → ℕ → ℚ → ℕ
  | [], _, best, _ => best
  | x :: xs, i, best, bv =>
    if bv < x then argmaxFirstQAux xs (i + 1) i x
    else argmaxFirstQAux xs (i + 1) best bv

def argmaxFirstQ : List ℚ → ℕ
  | [] => 0
  | x :: xs => argmaxFirstQAux xs 1 0 x

/-- True when the row has an undefined (`NaN`) coordinate
(`np.isnan(embedding).any(axis=1)` entry). -/
def rowHasNaN (r : List (Option ℚ)) : Bool := r.any (fun x => x.isNone)

/-- Rows with some undefined coordinate (`disconnected_idx`). -/
def nanRowIdx (emb : List (List (Option ℚ))) : List ℕ := idxWhere rowHasNaN emb

/-- Rows with no undefined coordinate (`connected_idx`). -/
def connRowIdx (emb : List (List (Option ℚ))) : List ℕ :=
  idxWhere (fun r => !rowHasNaN r) emb

/-- Candidates sharing the disconnected deck's commander, excluding the deck
itself (`decks_with_comm`). -/
def sameCommanderIdx (cd : List (ℕ × CDeck)) (d : ℕ) (dDeck : CDeck) : List ℕ :=
  (cd.filter (fun p => p.2.commander == dDeck.commander && p.1 != d)).map (fun p => p.1)

/-- Uniformly drawn already-connected row (`np.random.choice(connected_idx)`),
rendered by the oracle `picks` at loop step `j`. -/
def randomConnected (connIdx : List ℕ) (picks : ℕ → ℕ) (j : ℕ) : ℕ :=
  connIdx.getD (picks j % connIdx.length) 0

/-- Anchor row chosen for the disconnected deck at row `d` (loop step `j`):
the most card-similar same-commander deck when the deck dictionary supplies
one, a random connected row otherwise. -/
def anchorOf (cdecks : Option (List (ℕ × CDeck))) (connIdx : List ℕ)
    (picks : ℕ → ℕ) (j d : ℕ) : ℕ :=
  match cdecks with
  | none => randomConnected connIdx picks j
  | some cd =>
    if cd.isEmpty then randomConnected connIdx picks j
    else
      match cd.lookup d with
      | none => randomConnected connIdx picks j
      | some dDeck =>
        if sameCommanderIdx cd d dDeck = [] then randomConnected connIdx picks j
        else
          (sameCommanderIdx cd d dDeck).getD
            (argmaxFirstQ ((sameCommanderIdx cd d dDeck).map
              (fun i => jaccard dDeck.cards (((cd.lookup i).getD ⟨"", []⟩).cards)))) 0

/-- Jitter vector drawn once per call:
`np.random.uniform(0.001, 0.002, (n_dims,)) * np.random.choice([1,-1], (n_dims,))`. -/
def noiseVec (n_dims : ℕ) (uniforms : ℕ → ℚ) (signs : ℕ → Bool) : List ℚ :=
  (List.range n_dims).map (fun j => uniforms j * (if signs j then 1 else -1))

/-- Borrowed anchor coordinates plus jitter, coordinatewise; a `NaN`
coordinate stays `NaN` (`embedding[assignments] + noise`). -/
def addNoiseRow (r : List (Option ℚ)) (noise : List ℚ) : List (Option ℚ) :=
  (r.zip noise).map (fun p => p.1.map (fun x => x + p.2))

/-- Position of the first occurrence of `d` in a list of row indices. -/
def posIn : List ℕ → ℕ → Option ℕ
  | [], _ => none
  | x :: xs, d => if x = d then some 0 else (posIn xs d).map (· + 1)

/-- Map with the row index threaded through. -/
def mapWithIdx {α β : Type} (f : ℕ → α → β) : ℕ → List α → List β
  | _, [] => []
  | i, x :: xs => f i x :: mapWithIdx f (i + 1) xs

/-- Shallow embedding of `ClusteringService.handle_disconnected_points`. -/
def handle_disconnected_points (emb : List (List (Option ℚ)))
    (cdecks : Option (List (ℕ × CDeck))) (n_dims : ℕ)
    (uniforms : ℕ → ℚ) (signs : ℕ → Bool) (picks : ℕ → ℕ)
    (fullRand : ℕ → ℕ → ℚ) : List (List (Option ℚ)) :=
  if (nanRowIdx emb).length = 0 then emb
  else if (connRowIdx emb).length = 0 then
    mapWithIdx (fun i r => mapWithIdx (fun j _ => some (fullRand i j)) 0 r) 0 emb
  else
    mapWithIdx
      (fun i r =>
        match posIn (nanRowIdx emb) i with
        | none => r
        | some j =>
          addNoiseRow (emb.getD (anchorOf cdecks (connRowIdx emb) picks j i) [])
            (noiseVec n_dims uniforms signs))
      0 emb

theorem idxWhereAux_nil_of_none {α : Type} (p : α → Bool) (xs : List α)
    (h : ∀ x ∈ xs, p x = false) : ∀ i, idxWhereAux p i xs = [] := by
  induction xs with
  | nil => intro i; rfl
  | cons x rest ih =>
    intro i
    have hx := h x (by simp)
    simp only [idxWhereAux, hx]
    exact ih (fun y hy => h y (by simp [hy])) (i + 1)

/-- C8: on an embedding with no undefined coordinate the repair operation
returns its input unchanged, and hence running repair twice on such an
embedding equals running it zero times. -/
theorem C8_repair_noop_idempotent (emb : List (List (Option ℚ)))
    (cdecks cdecks2 : Option (List (ℕ × CDeck))) (n_dims n_dims2 : ℕ)
    (uniforms uniforms2 : ℕ → ℚ) (signs signs2 : ℕ → Bool) (picks picks2 : ℕ → ℕ)
    (fullRand fullRand2 : ℕ → ℕ → ℚ)
    (h : ∀ r ∈ emb, rowHasNaN r = false) :
    handle_disconnected_points emb cdecks n_dims uniforms signs picks fullRand = emb ∧
    handle_disconnected_points
      (handle_disconnected_points emb cdecks n_dims uniforms signs picks fullRand)
      cdecks2 n_dims2 uniforms2 signs2 picks2 fullRand2 = emb := by
  have hnil : nanRowIdx emb = [] := idxWhereAux_nil_of_none rowHasNaN emb h 0
  have h1 : handle_disconnected_points emb cdecks n_dims uniforms signs picks fullRand
      = emb := by
    unfold handle_disconnected_points
    rw [hnil]
    simp
  refine ⟨h1, ?_⟩
  rw [h1]
  unfold handle_disconnected_points
  rw [hnil]
  simp

/-- Witness for C8 at a concrete fully-connected 2-point embedding. -/
theorem C8_repair_noop_idempotent_witness :
    handle_disconnected_points [[some 1, some 2], [some 3, some 4]]
      none 2 (fun _ => 3/2000) (fun _ => true) (fun _ => 0) (fun _ _ => 0)
      = [[some 1, some 2], [some 3, some 4]] ∧
    handle_disconnected_points
      (handle_disconnected_points [[some 1, some 2], [some 3, some 4]]
        none 2 (fun _ => 3/2000) (fun _ => true) (fun _ => 0) (fun _ _ => 0))
      none 2 (fun _ => 3/2000) (fun _ => true) (fun _ => 0) (fun _ _ => 0)
      = [[some 1, some 2], [some 3, some 4]] :=
  C8_repair_noop_idempotent [[some 1, some 2], [some 3, some 4]]
    none none 2 2 (fun _ => 3/2000) (fun _ => 3/2000) (fun _ => true) (fun _ => true)
    (fun _ => 0) (fun _ => 0) (fun _ _ => 0) (fun _ _ => 0) (by decide)

theorem mapWithIdx_length {α β : Type} (f : ℕ → α → β) :
    ∀ (xs : List α) (i : ℕ), (mapWithIdx f i xs).length = xs.length := by
  intro xs
  induction xs with
  | nil => intro i; rfl
  | cons x rest ih => intro i; simp [mapWithIdx, ih]

theorem mapWithIdx_getD {α β : Type} (f : ℕ → α → β) (a : α) (b : β) :
    ∀ (xs : List α) (i k : ℕ), k < xs.length →
      (mapWithIdx f i xs).getD k b = f (i + k) (xs.getD k a) := by
  intro xs
  induction xs with
  | nil => intro i k hk; simp at hk
  | cons x rest ih =>
    intro i k hk
    cases k with
    | zero => simp [mapWithIdx]
    | succ k0 =>
      simp only [mapWithIdx, List.getD_cons_succ]
      rw [ih (i + 1) k0 (by simpa using hk)]
      congr 1
      omega

theorem idxWhereAux_ge {α : Type} (p : α → Bool) :
    ∀ (xs : List α) (i : ℕ), ∀ x ∈ idxWhereAux p i xs, i ≤ x := by
  intro xs
  induction xs with
  | nil => intro i x hx; simp [idxWhereAux] at hx
  | cons y rest ih =>
    intro i x hx
    simp only [idxWhereAux] at hx
    split_ifs at hx with hp
    · rcases List.mem_cons.mp hx with h | h
      · omega
      · have := ih (i + 1) x h; omega
    · have := ih (i + 1) x hx; omega

theorem idxWhereAux_lt {α : Type} (p : α → Bool) :
    ∀ (xs : List α) (i : ℕ), ∀ x ∈ idxWhereAux p i xs, x < i + xs.length := by
  intro xs
  induction xs with
  | nil => intro i x hx; simp [idxWhereAux] at hx
  | cons y rest ih =>
    intro i x hx
    simp only [idxWhereAux] at hx
    split_ifs at hx with hp
    · rcases List.mem_cons.mp hx with h | h
      · simp [h]
      · have := ih (i + 1) x h; simp only [List.length_cons]; omega
    · have := ih (i + 1) x hx; simp only [List.length_cons]; omega

theorem idxWhereAux_nodup {α : Type} (p : α → Bool) :
    ∀ (xs : List α) (i : ℕ), (idxWhereAux p i xs).Nodup := by
  intro xs
  induction xs with
  | nil => intro i; simp [idxWhereAux]
  | cons y rest ih =>
    intro i
    simp only [idxWhereAux]
    split_ifs with hp
    · refine List.nodup_cons.mpr ⟨?_, ih (i + 1)⟩
      intro hmem
      have := idxWhereAux_ge p rest (i + 1) i hmem
      omega
    · exact ih (i + 1)

theorem posIn_getD (l : List ℕ) (hnd : l.Nodup) :
    ∀ j, j < l.length → posIn l (l.getD j 0) = some j := by
  induction l with
  | nil => intro j hj; simp at hj
  | cons x rest ih =>
    intro j hj
    cases j with
    | zero => simp [posIn]
    | succ j0 =>
      have hj0 : j0 < rest.length := by simpa using hj
      have hmem : rest.getD j0 0 ∈ rest := by
        rw [List.getD_eq_getElem rest 0 hj0]
        exact List.getElem_mem hj0
      have hne : ¬x = rest.getD j0 0 := by
        intro hcontra
        exact (List.nodup_cons.mp hnd).1 (hcontra ▸ hmem)
      simp only [List.getD_cons_succ, posIn, if_neg hne]
      rw [ih (List.nodup_cons.mp hnd).2 j0 hj0]
      rfl

/-- C9 counterexample input: one connected deck (row 0) and two disconnected
decks (rows 1 and 2, both entirely `NaN`) that share a commander, so each
anchors to the other. -/
def embC9 : List (List (Option ℚ)) := [[some 0, some 0], [none, none], [none, none]]

def cdecksC9 : List (ℕ × CDeck) :=
  [(0, ⟨"Krenko", []⟩), (1, ⟨"Atraxa", ["Sol Ring"]⟩), (2, ⟨"Atraxa", ["Sol Ring"]⟩)]

/-- C9 counterexample: with at least one connected point, the repaired row 1
is anchored to the (itself disconnected, entirely-`NaN`) same-commander row 2
and coincides with it exactly — refuting the claim that no repaired point
coincides with its anchor.  The whole embedding comes back unchanged even
though rows 1 and 2 were disconnected and repaired. -/
theorem C9_jitter_counterexample :
    0 < (connRowIdx embC9).length ∧
    nanRowIdx embC9 = [1, 2] ∧
    anchorOf (some cdecksC9) (connRowIdx embC9) (fun _ => 0) 0 1 = 2 ∧
    handle_disconnected_points embC9 (some cdecksC9) 2
        (fun _ => 3/2000) (fun _ => true) (fun _ => 0) (fun _ _ => 0) = embC9 ∧
    (handle_disconnected_points embC9 (some cdecksC9) 2
        (fun _ => 3/2000) (fun _ => true) (fun _ => 0) (fun _ _ => 0)).getD 1 []
      = embC9.getD (anchorOf (some cdecksC9) (connRowIdx embC9) (fun _ => 0) 0 1) [] := by
  refine ⟨by decide, by decide, ?_, ?_, ?_⟩ <;> with_unfolding_all decide

/-- C9 (amended): in a single repair call with at least one connected point,
one jitter vector is drawn and shared by every repaired row: each repaired
row equals its anchor row plus that vector coordinatewise, each jitter
coordinate has nonzero magnitude in `[0.001, 0.002)`, two disconnected decks
resolving to the same anchor receive identical repaired coordinates, and a
repaired point differs from its anchor provided the anchor row has at least
one defined (non-`NaN`) coordinate among the jittered dimensions (an
entirely-`NaN` anchor row is borrowed verbatim and the repaired point then
coincides with it, as the counterexample shows). -/
theorem C9_jitter_shared_noise (emb : List (List (Option ℚ)))
    (cdecks : Option (List (ℕ × CDeck))) (n_dims : ℕ)
    (uniforms : ℕ → ℚ) (signs : ℕ → Bool) (picks : ℕ → ℕ) (fullRand : ℕ → ℕ → ℚ)
    (hconn : 0 < (connRowIdx emb).length)
    (hU : ∀ j, 1/1000 ≤ uniforms j ∧ uniforms j < 2/1000) :
    (∀ j, j < (nanRowIdx emb).length →
      (handle_disconnected_points emb cdecks n_dims uniforms signs picks fullRand).getD
          ((nanRowIdx emb).getD j 0) []
        = addNoiseRow
            (emb.getD
              (anchorOf cdecks (connRowIdx emb) picks j ((nanRowIdx emb).getD j 0)) [])
            (noiseVec n_dims uniforms signs)) ∧
    (∀ k, k < n_dims →
      (noiseVec n_dims uniforms signs).getD k 0 ≠ 0 ∧
      1/1000 ≤ |(noiseVec n_dims uniforms signs).getD k 0| ∧
      |(noiseVec n_dims uniforms signs).getD k 0| < 2/1000) ∧
    (∀ j1 j2, j1 < (nanRowIdx emb).length → j2 < (nanRowIdx emb).length →
      anchorOf cdecks (connRowIdx emb) picks j1 ((nanRowIdx emb).getD j1 0)
        = anchorOf cdecks (connRowIdx emb) picks j2 ((nanRowIdx emb).getD j2 0) →
      (handle_disconnected_points emb cdecks n_dims uniforms signs picks fullRand).getD
          ((nanRowIdx emb).getD j1 0) []
        = (handle_disconnected_points emb cdecks n_dims uniforms signs picks fullRand).getD
            ((nanRowIdx emb).getD j2 0) []) ∧
    (∀ j, j < (nanRowIdx emb).length →
      ∀ k q, k < n_dims →
        k < (emb.getD
          (anchorOf cdecks (connRowIdx emb) picks j ((nanRowIdx emb).getD j 0)) []).length →
        (emb.getD
          (anchorOf cdecks (connRowIdx emb) picks j ((nanRowIdx emb).getD j 0)) []).getD
            k none = some q →
      (handle_disconnected_points emb cdecks n_dims uniforms signs picks fullRand).getD
          ((nanRowIdx emb).getD j 0) []
        ≠ emb.getD
            (anchorOf cdecks (connRowIdx emb) picks j ((nanRowIdx emb).getD j 0)) []) := by
  have hnoiseLen : (noiseVec n_dims uniforms signs).length = n_dims := by
    simp [noiseVec]
  have hnoiseGet : ∀ k, k < n_dims →
      (noiseVec n_dims uniforms signs).getD k 0 = uniforms k * (if signs k then 1 else -1) := by
    intro k hk
    rw [List.getD_eq_getElem _ 0 (by omega : k < (noiseVec n_dims uniforms signs).length)]
    simp [noiseVec]
  have hnoiseNe : ∀ k, k < n_dims → (noiseVec n_dims uniforms signs).getD k 0 ≠ 0 := by
    intro k hk
    rw [hnoiseGet k hk]
    have h1 := (hU k).1
    rcases Bool.eq_false_or_eq_true (signs k) with hs | hs <;> rw [hs] <;> simp <;> intro hc
    · rw [hc] at h1; norm_num at h1
    · rw [hc] at h1; norm_num at h1
  have hmain : ∀ j, j < (nanRowIdx emb).length →
      (handle_disconnected_points emb cdecks n_dims uniforms signs picks fullRand).getD
          ((nanRowIdx emb).getD j 0) []
        = addNoiseRow
            (emb.getD
              (anchorOf cdecks (connRowIdx emb) picks j ((nanRowIdx emb).getD j 0)) [])
            (noiseVec n_dims uniforms signs) := by
    intro j hj
    have hnan0 : (nanRowIdx emb).length ≠ 0 := by omega
    have hd_mem : (nanRowIdx emb).getD j 0 ∈ nanRowIdx emb := by
      rw [List.getD_eq_getElem _ 0 hj]
      exact List.getElem_mem hj
    have hd_lt : (nanRowIdx emb).getD j 0 < emb.length := by
      have := idxWhereAux_lt rowHasNaN emb 0 _ hd_mem
      simpa using this
    unfold handle_disconnected_points
    rw [if_neg hnan0, if_neg (by omega)]
    rw [mapWithIdx_getD _ [] [] emb 0 _ hd_lt]
    rw [Nat.zero_add]
    rw [posIn_getD (nanRowIdx emb) (idxWhereAux_nodup rowHasNaN emb 0) j hj]
  refine ⟨hmain, ?_, ?_, ?_⟩
  · intro k hk
    refine ⟨hnoiseNe k hk, ?_, ?_⟩
    · rw [hnoiseGet k hk]
      have h1 := (hU k).1
      rcases Bool.eq_false_or_eq_true (signs k) with hs | hs <;> rw [hs] <;> simp <;>
        rw [abs_of_nonneg (by linarith)] <;> linarith
    · rw [hnoiseGet k hk]
      have h1 := (hU k).1
      have h2 := (hU k).2
      rcases Bool.eq_false_or_eq_true (signs k) with hs | hs <;> rw [hs] <;> simp <;>
        rw [abs_of_nonneg (by linarith)] <;> linarith
  · intro j1 j2 hj1 hj2 hanchor
    rw [hmain j1 hj1, hmain j2 hj2, hanchor]
  · intro j hj k q hk hklen hkq hcontra
    have heq := (hmain j hj).symm.trans hcontra
    have hzip : k < ((emb.getD
        (anchorOf cdecks (connRowIdx emb) picks j ((nanRowIdx emb).getD j 0)) []).zip
          (noiseVec n_dims uniforms signs)).length := by
      rw [List.length_zip]
      omega
    have hgetAdd : (addNoiseRow
        (emb.getD
          (anchorOf cdecks (connRowIdx emb) picks j ((nanRowIdx emb).getD j 0)) [])
        (noiseVec n_dims uniforms signs)).getD k none
        = some (q + (noiseVec n_dims uniforms signs).getD k 0) := by
      unfold addNoiseRow
      rw [List.getD_eq_getElem _ none (by simpa using hzip)]
      rw [List.getElem_map]
      rw [List.getElem_zip]
      rw [List.getD_eq_getElem _ none hklen] at hkq
      rw [hkq]
      rw [List.getD_eq_getElem _ 0 (by omega : k < (noiseVec n_dims uniforms signs).length)]
      rfl
    rw [heq] at hgetAdd
    rw [List.getD_eq_getElem _ none hklen] at hkq hgetAdd
    rw [hkq] at hgetAdd
    have hq : q + (noiseVec n_dims uniforms signs).getD k 0 = q := by
      injection hgetAdd.symm
    exact hnoiseNe k hk (by linarith)

/-- Witness for C9 at a concrete input: one connected deck at the origin and
one disconnected deck; the repaired row 1 equals the anchor row 0 plus the
jitter vector. -/
theorem C9_jitter_shared_noise_witness :
    (handle_disconnected_points [[some 0, some 0], [none, none]] none 2
        (fun _ => 3/2000) (fun _ => true) (fun _ => 0) (fun _ _ => 0)).getD
      ((nanRowIdx [[some 0, some 0], [none, none]]).getD 0 0) []
      = addNoiseRow
          ([[some 0, some 0], [none, none]].getD
            (anchorOf none (connRowIdx [[some 0, some 0], [none, none]]) (fun _ => 0) 0
              ((nanRowIdx [[some 0, some 0], [none, none]]).getD 0 0)) [])
          (noiseVec 2 (fun _ => 3/2000) (fun _ => true)) :=
  (C9_jitter_shared_noise [[some 0, some 0], [none, none]] none 2
    (fun _ => 3/2000) (fun _ => true) (fun _ => 0) (fun _ _ => 0)
    (by decide) (fun j => by norm_num)).1 0 (by decide)

/-! ### C5: JSON export shape

Embeds `ExportService.jsonify_map` and `ExportService._convert_trait_value`
(`domain/services/export_service.py`).  DataFrames become lists of row
structures; the per-cluster JSON object becomes `ClusterObj` (the defaultdict
grouping of trait categories is rendered as the ordered list of
`(category, value, percent)` triples).  The unused `magic_cards` parameter of
the source is omitted.  `str(avg_deck_id)` is kept as the integer id.
The partner-pair branch of `_convert_trait_value` subscripts
`trait_mapping['commanderID']` directly, so a mapping without that key
raises `KeyError` there; the embedding returns `none` on that path and
propagates the failure through `jsonify_map`. -/

/-- Row of the `cluster_traits` DataFrame. -/
structure TraitRow where
  clusterID : ℤ
  category : String
  value : String
  percent : ℤ
deriving DecidableEq

/-- Row of the `cluster_defining_cards` DataFrame (`synergy` column present
only when it was computed). -/
structure CardRow where
  clusterID : ℤ
  card : String
  play_rate : ℚ
  synergy : Option ℚ
deriving DecidableEq

/-- Deck metadata as read by the export stage: its cluster and its price
(`none` for a non-finite price, which `np.isfinite` filters out). -/
structure PriceRow where
  clusterID : ℤ
  price : Option ℚ
deriving DecidableEq

/-- One exported cluster object.  `clusterID` is `none` exactly when the
source omits the key (single-cluster export). -/
structure ClusterObj where
  clusterID : Option ℤ
  traits : List (String × String × ℤ)
  definingCards : List (String × ℚ × Option ℚ)
  averagePrice : ℤ
  averageDeck : ℤ
deriving DecidableEq

/-- Result of `jsonify_map`: a bare object for a single cluster, a list
otherwise. -/
inductive ExportResult
  | single (o : ClusterObj)
  | many (l : List ClusterObj)
deriving DecidableEq

/-- The five basic lands excluded from exported defining cards. -/
def BASICS : List String := ["Plains", "Island", "Swamp", "Mountain", "Forest"]

/-- Ascending list of the distinct elements (`sorted(set(xs))`). -/
def dedupSortInt (xs : List ℤ) : List ℤ := (xs.dedup).insertionSort (· ≤ ·)

/-- Python `int()` on a rational: truncation toward zero. -/
def intTrunc (q : ℚ) : ℤ := Int.tdiv q.num q.den

/-- The export-stage column rename (`commander-partnerID` to `commanderID`). -/
def renameCategory (c : String) : String :=
  if c = "commander-partnerID" then "commanderID" else c

/-- Shallow embedding of `ExportService._convert_trait_value`: substitute a
trait value by its integer id, mapping partner pairs componentwise.  The
partner-pair branch uses the unguarded subscript
`trait_mapping['commanderID']`, which raises `KeyError` when the key is
absent: that reachable error path is rendered as `none`.  The fallthrough
branch uses `.get(...)` defaults and cannot fail. -/
def convert_trait_value (category value : String)
    (trait_mapping : List (String × List (String × ℕ))) : Option String :=
  if category = "commanderID" ∧ (value.splitOn " + ").length > 1 then
    match trait_mapping.lookup "commanderID" with
    | none => none
    | some m =>
      some (String.intercalate "+"
        ((value.splitOn " + ").map (fun p =>
          match m.lookup p with
          | some n => toString n
          | none => p)))
  else
    some (match ((trait_mapping.lookup category).getD []).lookup value with
      | some n => toString n
      | none => value)

/-- The value exported for one trait row: converted through the mapping when
one was supplied and non-empty (`if trait_mapping:` in the source), the raw
value otherwise; `none` when the conversion raises. -/
def traitValueOf (trait_mapping : Option (List (String × List (String × ℕ))))
    (r : TraitRow) : Option String :=
  match trait_mapping with
  | some tm =>
    if tm.isEmpty then some r.value
    else convert_trait_value (renameCategory r.category) r.value tm
  | none => some r.value

/-- The cluster list the caller asked for (`clusters` argument, defaulting to
`sorted(set(cluster_labels))`). -/
def requestedClusters (cluster_labels : List ℤ) : Option (List ℤ) → List ℤ
  | none => dedupSortInt cluster_labels
  | some cs => cs

/-- Trait rows restricted to the requested clusters, with empty tribe/theme
values dropped. -/
def filteredTraits (cluster_labels : List ℤ) (cluster_traits : List TraitRow)
    (clustersArg : Option (List ℤ)) : List TraitRow :=
  (cluster_traits.filter
      (fun r => (requestedClusters cluster_labels clustersArg).contains r.clusterID)).filter
    (fun r => !((r.category == "tribeID" || r.category == "themeID") && r.value == ""))

/-- Clusters that survive into the output: the export loop iterates over
`sorted(set(traits.clusterID))` after trait filtering, so a cluster whose
trait rows were all dropped disappears entirely. -/
def remainingClusters (cluster_labels : List ℤ) (cluster_traits : List TraitRow)
    (clustersArg : Option (List ℤ)) : List ℤ :=
  dedupSortInt ((filteredTraits cluster_labels cluster_traits clustersArg).map
    (fun r => r.clusterID))

/-- Defining-card rows restricted to the requested clusters, with basic lands
dropped. -/
def filteredCards (cluster_labels : List ℤ) (cluster_defining_cards : List CardRow)
    (clustersArg : Option (List ℤ)) : List CardRow :=
  (cluster_defining_cards.filter
      (fun r => (requestedClusters cluster_labels clustersArg).contains r.clusterID)).filter
    (fun r => !(BASICS.contains r.card))

/-- Deck rows restricted to the requested clusters. -/
def filteredDecks (decks : List PriceRow) (cluster_labels : List ℤ)
    (clustersArg : Option (List ℤ)) : List PriceRow :=
  decks.filter (fun d => (requestedClusters cluster_labels clustersArg).contains d.clusterID)

/-- Mean price over the cluster's finite-price decks
(`average_prices.get(clust, 0)`: 0 when the group is absent). -/
def averagePriceOf (decks1 : List PriceRow) (c : ℤ) : ℚ :=
  if (decks1.filterMap (fun d => if d.clusterID = c then d.price else none)) = [] then 0
  else ((decks1.filterMap (fun d => if d.clusterID = c then d.price else none)).sum) /
    ((decks1.filterMap (fun d => if d.clusterID = c then d.price else none)).length)

/-- One cluster's JSON object, as assembled by the export loop body; `none`
when some trait row's value conversion raises `KeyError`. -/
def buildClusterObj (nClusters : ℕ) (traits2 : List TraitRow) (defining2 : List CardRow)
    (decks1 : List PriceRow) (average_decklists : List (ℤ × ℤ))
    (trait_mapping : Option (List (String × List (String × ℕ)))) (c : ℤ) :
    Option ClusterObj :=
  (optMapList (fun r => (traitValueOf trait_mapping r).map
      (fun v => (renameCategory r.category, v, r.percent)))
    (traits2.filter (fun r => r.clusterID == c))).map (fun ts =>
    { clusterID := if nClusters > 1 then some c else none
      traits := ts
      definingCards := (defining2.filter (fun r => r.clusterID == c)).map
        (fun r => (r.card, r.play_rate, r.synergy))
      averagePrice := intTrunc (averagePriceOf decks1 c)
      averageDeck := (average_decklists.lookup c).getD 0 })

/-- Shallow embedding of `ExportService.jsonify_map`; `none` when a trait
value conversion inside the export loop raises. -/
def jsonify_map (decks : List PriceRow) (cluster_labels : List ℤ)
    (cluster_defining_cards : List CardRow) (cluster_traits : List TraitRow)
    (average_decklists : List (ℤ × ℤ)) (clustersArg : Option (List ℤ))
    (trait_mapping : Option (List (String × List (String × ℕ)))) :
    Option ExportResult :=
  match optMapList
      (buildClusterObj (remainingClusters cluster_labels cluster_traits clustersArg).length
        (filteredTraits cluster_labels cluster_traits clustersArg)
        (filteredCards cluster_labels cluster_defining_cards clustersArg)
        (filteredDecks decks cluster_labels clustersArg)
        average_decklists trait_mapping)
      (remainingClusters cluster_labels cluster_traits clustersArg) with
  | none => none
  | some [o] => some (.single o)
  | some l => some (.many l)

theorem buildClusterObj_clusterID (nClusters : ℕ) (traits2 : List TraitRow)
    (defining2 : List CardRow) (decks1 : List PriceRow)
    (average_decklists : List (ℤ × ℤ))
    (trait_mapping : Option (List (String × List (String × ℕ)))) (c : ℤ)
    (o : ClusterObj)
    (ho : buildClusterObj nClusters traits2 defining2 decks1 average_decklists
      trait_mapping c = some o)
    (hn : 1 < nClusters) : o.clusterID = some c := by
  rcases Option.map_eq_some'.mp ho with ⟨ts, _, rfl⟩
  simp [hn]

theorem buildClusterObj_isSome (nClusters : ℕ) (traits2 : List TraitRow)
    (defining2 : List CardRow) (decks1 : List PriceRow)
    (average_decklists : List (ℤ × ℤ))
    (trait_mapping : Option (List (String × List (String × ℕ)))) (c : ℤ)
    (h : ∀ r ∈ traits2.filter (fun r => r.clusterID == c),
      (traitValueOf trait_mapping r).isSome) :
    (buildClusterObj nClusters traits2 defining2 decks1 average_decklists
      trait_mapping c).isSome := by
  obtain ⟨ts, hts⟩ := optMapList_isSome
    (fun r => (traitValueOf trait_mapping r).map
      (fun v => (renameCategory r.category, v, r.percent)))
    (traits2.filter (fun r => r.clusterID == c))
    (fun r hr => by
      have hs := h r hr
      cases hv : traitValueOf trait_mapping r with
      | none => rw [hv] at hs; simp at hs
      | some v => simp [hv])
  unfold buildClusterObj
  rw [hts]
  rfl

/-- C5 counterexample: a non-empty trait mapping without the `commanderID`
key together with a surviving partner-pair commander trait row makes
`jsonify_map` raise `KeyError` on `trait_mapping['commanderID']` (rendered
as `none`) rather than return a value of the claimed shape, refuting the
claim's unconditional "for every export input". -/
theorem C5_export_raises_counterexample :
    jsonify_map [] [0] [] [⟨0, "commanderID", "A + B", 50⟩] [] none
      (some [("tribeID", [("Elves", 5)])]) = none := by
  with_unfolding_all decide

/-- C5 (amended): whenever no trait value conversion raises — in particular
always when no trait mapping is supplied — `jsonify_map` returns a value,
and after basic-land and empty-trait filtering, exporting exactly one
remaining cluster returns a bare object (not wrapped in a list); exporting
two or more remaining clusters returns a list with exactly one object per
remaining cluster, each carrying its cluster id; clusters whose trait rows
were all filtered out are absent from `remainingClusters` and hence from the
output. -/
theorem C5_export_shape (decks : List PriceRow) (cluster_labels : List ℤ)
    (cluster_defining_cards : List CardRow) (cluster_traits : List TraitRow)
    (average_decklists : List (ℤ × ℤ)) (clustersArg : Option (List ℤ))
    (trait_mapping : Option (List (String × List (String × ℕ))))
    (hconv : ∀ r ∈ filteredTraits cluster_labels cluster_traits clustersArg,
      (traitValueOf trait_mapping r).isSome) :
    ((remainingClusters cluster_labels cluster_traits clustersArg).length = 1 →
      ∃ o, jsonify_map decks cluster_labels cluster_defining_cards cluster_traits
          average_decklists clustersArg trait_mapping = some (.single o)) ∧
    (2 ≤ (remainingClusters cluster_labels cluster_traits clustersArg).length →
      ∃ l, jsonify_map decks cluster_labels cluster_defining_cards cluster_traits
          average_decklists clustersArg trait_mapping = some (.many l) ∧
        l.length = (remainingClusters cluster_labels cluster_traits clustersArg).length ∧
        ∀ c, c ∈ remainingClusters cluster_labels cluster_traits clustersArg ↔
          some c ∈ l.map (fun o => o.clusterID)) := by
  have hsome : ∀ c, (buildClusterObj
      (remainingClusters cluster_labels cluster_traits clustersArg).length
      (filteredTraits cluster_labels cluster_traits clustersArg)
      (filteredCards cluster_labels cluster_defining_cards clustersArg)
      (filteredDecks decks cluster_labels clustersArg)
      average_decklists trait_mapping c).isSome := by
    intro c
    apply buildClusterObj_isSome
    intro r hr
    exact hconv r (List.mem_of_mem_filter hr)
  obtain ⟨objs, hobjs⟩ := optMapList_isSome
    (buildClusterObj (remainingClusters cluster_labels cluster_traits clustersArg).length
      (filteredTraits cluster_labels cluster_traits clustersArg)
      (filteredCards cluster_labels cluster_defining_cards clustersArg)
      (filteredDecks decks cluster_labels clustersArg)
      average_decklists trait_mapping)
    (remainingClusters cluster_labels cluster_traits clustersArg)
    (fun c _ => hsome c)
  have hlen := optMapList_length _ _ _ hobjs
  constructor
  · intro h1
    unfold jsonify_map
    rw [hobjs]
    rcases objs with _ | ⟨o, rest⟩
    · rw [h1] at hlen; simp at hlen
    · rcases rest with _ | ⟨o2, rest2⟩
      · exact ⟨o, rfl⟩
      · rw [h1] at hlen; simp at hlen
  · intro h2
    have hgt : 1 < (remainingClusters cluster_labels cluster_traits clustersArg).length := h2
    unfold jsonify_map
    rw [hobjs]
    rcases objs with _ | ⟨o, rest⟩
    · simp at hlen; omega
    · rcases rest with _ | ⟨o2, rest2⟩
      · simp at hlen; omega
      · refine ⟨o :: o2 :: rest2, rfl, hlen, ?_⟩
        intro c
        constructor
        · intro hc
          obtain ⟨y, hy, hfy⟩ := optMapList_mem_forward _ _ _ hobjs c hc
          exact List.mem_map.mpr
            ⟨y, hy, buildClusterObj_clusterID _ _ _ _ _ _ _ _ hfy hgt⟩
        · intro hc
          rcases List.mem_map.mp hc with ⟨y, hy, hyid⟩
          obtain ⟨c0, hc0, hfc0⟩ := optMapList_mem_backward _ _ _ hobjs y hy
          have hid := buildClusterObj_clusterID _ _ _ _ _ _ _ _ hfc0 hgt
          rw [hid] at hyid
          obtain rfl : c0 = c := by simpa using hyid
          exact hc0

/-- Witness for C5 at concrete inputs (no trait mapping, so no conversion
can raise): a trait table whose surviving rows name one cluster yields a
bare object, and one naming two clusters yields a two-element list with one
object per cluster. -/
theorem C5_export_shape_witness :
    (∃ o, jsonify_map [] [0] [] [⟨0, "commanderID", "Atraxa", 50⟩] [] none none
      = some (.single o)) ∧
    (∃ l, jsonify_map [] [0, 1] []
        [⟨0, "commanderID", "Atraxa", 50⟩, ⟨1, "commanderID", "Krenko", 60⟩] [] none none
        = some (.many l) ∧
      l.length = (remainingClusters [0, 1]
        [⟨0, "commanderID", "Atraxa", 50⟩, ⟨1, "commanderID", "Krenko", 60⟩] none).length ∧
      ∀ c, c ∈ remainingClusters [0, 1]
          [⟨0, "commanderID", "Atraxa", 50⟩, ⟨1, "commanderID", "Krenko", 60⟩] none ↔
        some c ∈ l.map (fun o => o.clusterID)) :=
  ⟨(C5_export_shape [] [0] [] [⟨0, "commanderID", "Atraxa", 50⟩] [] none none
      (fun r _ => rfl)).1
     (by with_unfolding_all decide),
   (C5_export_shape [] [0, 1] []
      [⟨0, "commanderID", "Atraxa", 50⟩, ⟨1, "commanderID", "Krenko", 60⟩] [] none none
      (fun r _ => rfl)).2
     (by with_unfolding_all decide)⟩

/-! ### C2: cluster trait extraction

Embeds `ClusterAnalysisService.get_cluster_traits`
(`domain/services/cluster_analysis_service.py`).  The `commander_decks`
DataFrame becomes a column list plus a list of rows, each row holding its
`clusterID` and its categorical attributes as an association list.
`groupby(['clusterID', col]).size()` enumerates the distinct
`(cluster, value)` pairs in ascending key order with their multiplicities;
percentages are rounded with numpy's half-to-even rounding (`roundHE`);
`sort_values(by=['clusterID','percent'], ascending=[True,False])` is rendered
as a deterministic sort on that key (the claims below are invariant under the
tie order, which pandas' unstable quicksort leaves unspecified); and
`groupby('clusterID').head(topn)` keeps each cluster's first `topn` rows. -/

/-- Row of `commander_decks` as consumed by the trait extraction: the cluster
id and the categorical columns. -/
structure DeckTraitRow where
  clusterID : ℤ
  attrs : List (String × String)
deriving DecidableEq

/-- Value of column `col` in a row. -/
def getCol (r : DeckTraitRow) (col : String) : String := (r.attrs.lookup col).getD ""

/-- The `commander_decks` DataFrame: its columns and rows. -/
structure DeckTable where
  columns : List String
  rows : List DeckTraitRow
deriving DecidableEq

/-- Ascending list of the distinct strings (`sorted(set(xs))`). -/
def dedupSortStr (xs : List String) : List String := (xs.dedup).insertionSort (· ≤ ·)

/-- Distinct cluster ids in ascending order (pandas `groupby` sorts its
keys). -/
def clustersOfTable (rows : List DeckTraitRow) : List ℤ :=
  dedupSortInt (rows.map (fun r => r.clusterID))

/-- Distinct values of column `col` within cluster `c`, ascending. -/
def valuesOf (rows : List DeckTraitRow) (c : ℤ) (col : String) : List String :=
  dedupSortStr ((rows.filter (fun r => r.clusterID == c)).map (fun r => getCol r col))

/-- Multiplicity of the `(cluster, value)` group (`groupby(...).size()`). -/
def countVal (rows : List DeckTraitRow) (c : ℤ) (col v : String) : ℕ :=
  ((rows.filter (fun r => r.clusterID == c)).filter (fun r => getCol r col == v)).length

/-- Number of rows in cluster `c` (the per-cluster group size sum). -/
def clusterSize (rows : List DeckTraitRow) (c : ℤ) : ℕ :=
  (rows.filter (fun r => r.clusterID == c)).length

/-- Integer percentage of a `(cluster, value)` group: over the whole
population when only one cluster exists, per-cluster-normalised otherwise,
rounded half to even. -/
def percentOf (rows : List DeckTraitRow) (numClusters : ℕ) (c : ℤ) (col v : String) : ℤ :=
  if numClusters = 1 then
    roundHE ((countVal rows c col v : ℚ) / (rows.length : ℚ) * 100)
  else
    roundHE ((countVal rows c col v : ℚ) / (clusterSize rows c : ℚ) * 100)

/-- The `(cluster, value, percent)` group rows of one column, in ascending
`(clusterID, value)` order as `groupby(...).size().reset_index()` yields
them. -/
def groupRows (rows : List DeckTraitRow) (numClusters : ℕ) (col : String) :
    List TraitRow :=
  ((clustersOfTable rows).map (fun c =>
    (valuesOf rows c col).map (fun v =>
      TraitRow.mk c col v (percentOf rows numClusters c col v)))).flatten

/-- Sort key of `sort_values(by=['clusterID', 'percent'],
ascending=[True, False])`. -/
def traitOrder (a b : TraitRow) : Prop :=
  a.clusterID < b.clusterID ∨ (a.clusterID = b.clusterID ∧ b.percent ≤ a.percent)

instance : DecidableRel traitOrder := fun a b => by unfold traitOrder; infer_instance

def sortTraitRows (l : List TraitRow) : List TraitRow := l.insertionSort traitOrder

/-- Embedding of `groupby('clusterID').head(topn)`: keep each cluster's first
`n` rows in order, tracking how many rows of each cluster were already
kept. -/
def headPerCluster (n : ℕ) : List TraitRow → List (ℤ × ℕ) → List TraitRow
  | [], _ => []
  | r :: rest, seen =>
    if (seen.lookup r.clusterID).getD 0 < n then
      r :: headPerCluster n rest ((r.clusterID, (seen.lookup r.clusterID).getD 0 + 1) :: seen)
    else headPerCluster n rest seen

/-- Full per-column pipeline of the source loop body: group, percent, sort,
threshold, truncate. -/
def perColumnTraits (rows : List DeckTraitRow) (numClusters topn : ℕ) (min_perc : ℤ)
    (col : String) : List TraitRow :=
  headPerCluster topn
    ((sortTraitRows (groupRows rows numClusters col)).filter
      (fun r => decide (min_perc ≤ r.percent)))
    []

/-- Shallow embedding of `ClusterAnalysisService.get_cluster_traits`. -/
def get_cluster_traits (df : DeckTable) (topn : ℕ) (min_perc : ℤ)
    (drop_categories : List String) (columnsArg : List String) :
    Except String (List TraitRow) :=
  if !(df.columns.contains "clusterID") then
    .error "Must have clusterID column in commander_decks"
  else if ((columnsArg.filter (fun c => !(drop_categories.contains c))).filter
      (fun c => !(df.columns.contains c))) ≠ [] then
    .error "Missing columns"
  else
    .ok (((columnsArg.filter (fun c => !(drop_categories.contains c))).map
      (perColumnTraits df.rows ((df.rows.map (fun r => r.clusterID)).dedup).length
        topn min_perc)).flatten)

theorem headPerCluster_sublist (n : ℕ) :
    ∀ (l : List TraitRow) (seen : List (ℤ × ℕ)),
      List.Sublist (headPerCluster n l seen) l := by
  intro l
  induction l with
  | nil => intro seen; simp [headPerCluster]
  | cons r rest ih =>
    intro seen
    simp only [headPerCluster]
    split_ifs with h
    · exact List.Sublist.cons₂ r (ih _)
    · exact List.Sublist.cons r (ih _)

theorem lookup_cons_self (c : ℤ) (k : ℕ) (seen : List (ℤ × ℕ)) :
    (((c, k) :: seen).lookup c).getD 0 = k := by
  simp [List.lookup]

theorem lookup_cons_other (c c2 : ℤ) (k : ℕ) (seen : List (ℤ × ℕ)) (h : c2 ≠ c) :
    (((c, k) :: seen).lookup c2).getD 0 = (seen.lookup c2).getD 0 := by
  have : (c2 == c) = false := by simp [h]
  simp [List.lookup, this]

theorem headPerCluster_count (n : ℕ) (c : ℤ) :
    ∀ (l : List TraitRow) (seen : List (ℤ × ℕ)),
      ((headPerCluster n l seen).filter (fun r => r.clusterID == c)).length
        ≤ n - ((seen.lookup c).getD 0) := by
  intro l
  induction l with
  | nil => intro seen; simp [headPerCluster]
  | cons r rest ih =>
    intro seen
    simp only [headPerCluster]
    split_ifs with hk
    · by_cases hrc : r.clusterID = c
      · subst hrc
        have hkc := hk
        rw [List.filter_cons]
        simp only [beq_self_eq_true, if_pos]
        have hrec := ih ((r.clusterID, (seen.lookup r.clusterID).getD 0 + 1) :: seen)
        rw [lookup_cons_self] at hrec
        simp only [List.length_cons]
        omega
      · rw [List.filter_cons]
        have hbeq : (r.clusterID == c) = false := by simp [hrc]
        rw [hbeq]
        simp only [Bool.false_eq_true, if_neg, not_false_iff]
        have hrec := ih ((r.clusterID, (seen.lookup r.clusterID).getD 0 + 1) :: seen)
        rw [lookup_cons_other r.clusterID c _ seen (fun h => hrc h.symm)] at hrec
        exact hrec
    · exact ih seen

theorem perColumnTraits_subperm (rows : List DeckTraitRow) (ncl topn : ℕ) (mp : ℤ)
    (col : String) :
    List.Subperm (perColumnTraits rows ncl topn mp col) (groupRows rows ncl col) := by
  unfold perColumnTraits
  have h1 : List.Sublist
      (headPerCluster topn
        ((sortTraitRows (groupRows rows ncl col)).filter
          (fun r => decide (mp ≤ r.percent))) [])
      ((sortTraitRows (groupRows rows ncl col)).filter
        (fun r => decide (mp ≤ r.percent))) :=
    headPerCluster_sublist topn _ []
  have h2 : List.Sublist
      ((sortTraitRows (groupRows rows ncl col)).filter
        (fun r => decide (mp ≤ r.percent)))
      (sortTraitRows (groupRows rows ncl col)) :=
    List.filter_sublist _
  have h3 : (sortTraitRows (groupRows rows ncl col)).Perm (groupRows rows ncl col) :=
    List.perm_insertionSort _ _
  exact ((h1.trans h2).subperm).trans h3.subperm

theorem percentOf_nonneg (rows : List DeckTraitRow) (ncl : ℕ) (c : ℤ) (col v : String) :
    0 ≤ percentOf rows ncl c col v := by
  unfold percentOf
  split_ifs <;>
    exact roundHE_nonneg _
      (mul_nonneg (div_nonneg (by positivity) (by positivity)) (by norm_num))

theorem groupRows_shape (rows : List DeckTraitRow) (ncl : ℕ) (col : String) :
    ∀ r ∈ groupRows rows ncl col,
      r.category = col ∧ ∃ c v, c ∈ clustersOfTable rows ∧ v ∈ valuesOf rows c col ∧
        r = ⟨c, col, v, percentOf rows ncl c col v⟩ := by
  intro r hr
  unfold groupRows at hr
  rcases List.mem_flatten.mp hr with ⟨block, hblock, hrb⟩
  rcases List.mem_map.mp hblock with ⟨c, hc, rfl⟩
  rcases List.mem_map.mp hrb with ⟨v, hv, rfl⟩
  exact ⟨rfl, c, v, hc, hv, rfl⟩

theorem perColumnTraits_mem (rows : List DeckTraitRow) (ncl topn : ℕ) (mp : ℤ)
    (col : String) (r : TraitRow) (hr : r ∈ perColumnTraits rows ncl topn mp col) :
    mp ≤ r.percent ∧ r ∈ groupRows rows ncl col := by
  unfold perColumnTraits at hr
  have h1 := (headPerCluster_sublist topn _ []).mem hr
  have h2 := List.mem_filter.mp h1
  refine ⟨by simpa using h2.2, ?_⟩
  exact ((List.perm_insertionSort traitOrder (groupRows rows ncl col)).mem_iff).mp h2.1

theorem perColumnTraits_percent_nonneg (rows : List DeckTraitRow) (ncl topn : ℕ)
    (mp : ℤ) (col : String) (r : TraitRow)
    (hr : r ∈ perColumnTraits rows ncl topn mp col) : 0 ≤ r.percent := by
  obtain ⟨-, hmem⟩ := perColumnTraits_mem rows ncl topn mp col r hr
  obtain ⟨-, c, v, -, -, rfl⟩ := groupRows_shape rows ncl col r hmem
  exact percentOf_nonneg rows ncl c col v

theorem sublist_sum_le (l1 l2 : List ℤ) (h : List.Sublist l1 l2)
    (hnn : ∀ x ∈ l2, 0 ≤ x) : l1.sum ≤ l2.sum := by
  induction h with
  | slnil => simp
  | @cons l3 l4 a h ih =>
    simp only [List.sum_cons]
    have h1 := ih (fun x hx => hnn x (by simp [hx]))
    have ha := hnn a (by simp)
    omega
  | @cons₂ l3 l4 a h ih =>
    simp only [List.sum_cons]
    have h1 := ih (fun x hx => hnn x (by simp [hx]))
    omega

theorem subperm_filter_map_sum_le (l1 l2 : List TraitRow) (P : TraitRow → Bool)
    (h : List.Subperm l1 l2) (hnn : ∀ r ∈ l2, 0 ≤ r.percent) :
    ((l1.filter P).map (fun r => r.percent)).sum
      ≤ ((l2.filter P).map (fun r => r.percent)).sum := by
  obtain ⟨l, hperm, hsub⟩ := h
  have e1 : ((l.filter P).map (fun r => r.percent)).sum
      = ((l1.filter P).map (fun r => r.percent)).sum :=
    ((hperm.filter P).map (fun r => r.percent)).sum_eq
  rw [← e1]
  refine sublist_sum_le _ _ ((hsub.filter P).map (fun r => r.percent)) ?_
  intro x hx
  rcases List.mem_map.mp hx with ⟨r, hrf, rfl⟩
  exact hnn r (List.mem_of_mem_filter hrf)

theorem length_filter_flatten {α : Type} (P : α → Bool) :
    ∀ (L : List (List α)),
      ((L.flatten).filter P).length = (L.map (fun l => (l.filter P).length)).sum := by
  intro L
  induction L with
  | nil => simp
  | cons l L ih => simp [List.filter_append, ih, Function.comp_def]

theorem sum_map_filter_flatten (P : TraitRow → Bool) :
    ∀ (L : List (List TraitRow)),
      (((L.flatten).filter P).map (fun r => r.percent)).sum
        = (L.map (fun l => ((l.filter P).map (fun r => r.percent)).sum)).sum := by
  intro L
  induction L with
  | nil => simp
  | cons l L ih => simp [List.filter_append, ih, Function.comp_def]

theorem sum_single_nat (cat : String) (g : String → ℕ) :
    ∀ (L : List String), L.Nodup → (∀ col ∈ L, col ≠ cat → g col = 0) →
      (L.map g).sum ≤ g cat := by
  intro L
  induction L with
  | nil => intro _ _; simp
  | cons a as ih =>
    intro hnd hz
    simp only [List.map_cons, List.sum_cons]
    by_cases ha : a = cat
    · subst ha
      have hs : (as.map g).sum = 0 := by
        apply List.sum_eq_zero
        intro x hx
        rcases List.mem_map.mp hx with ⟨col, hcol, rfl⟩
        exact hz col (by simp [hcol]) (fun hcc => (List.nodup_cons.mp hnd).1 (hcc ▸ hcol))
      omega
    · rw [hz a (by simp) ha]
      have := ih (List.nodup_cons.mp hnd).2 (fun col hcol hne => hz col (by simp [hcol]) hne)
      omega

theorem sum_single_int (cat : String) (g : String → ℤ) (hnng : 0 ≤ g cat) :
    ∀ (L : List String), L.Nodup → (∀ col ∈ L, col ≠ cat → g col = 0) →
      (L.map g).sum ≤ g cat := by
  intro L
  induction L with
  | nil => intro _ _; simpa using hnng
  | cons a as ih =>
    intro hnd hz
    simp only [List.map_cons, List.sum_cons]
    by_cases ha : a = cat
    · subst ha
      have hs : (as.map g).sum = 0 := by
        apply List.sum_eq_zero
        intro x hx
        rcases List.mem_map.mp hx with ⟨col, hcol, rfl⟩
        exact hz col (by simp [hcol]) (fun hcc => (List.nodup_cons.mp hnd).1 (hcc ▸ hcol))
      omega
    · rw [hz a (by simp) ha]
      have := ih (List.nodup_cons.mp hnd).2 (fun col hcol hne => hz col (by simp [hcol]) hne)
      omega

theorem filter_blocks (rows : List DeckTraitRow) (ncl : ℕ) (col : String) (c : ℤ) :
    ∀ (L : List ℤ), L.Nodup →
      (((L.map (fun c2 => (valuesOf rows c2 col).map
          (fun v => TraitRow.mk c2 col v (percentOf rows ncl c2 col v)))).flatten).filter
        (fun r => r.clusterID == c && r.category == col))
      = if c ∈ L then
          (valuesOf rows c col).map
            (fun v => TraitRow.mk c col v (percentOf rows ncl c col v))
        else [] := by
  intro L
  induction L with
  | nil => intro _; simp
  | cons c2 L ih =>
    intro hnd
    simp only [List.map_cons, List.flatten_cons, List.filter_append]
    rw [ih (List.nodup_cons.mp hnd).2]
    by_cases hc2 : c2 = c
    · subst hc2
      have hnot : c2 ∉ L := (List.nodup_cons.mp hnd).1
      rw [if_neg hnot, if_pos (by simp)]
      rw [List.append_nil]
      apply List.filter_eq_self.mpr
      intro r hr
      rcases List.mem_map.mp hr with ⟨v, hv, rfl⟩
      simp
    · have hfe : ((valuesOf rows c2 col).map
          (fun v => TraitRow.mk c2 col v (percentOf rows ncl c2 col v))).filter
            (fun r => r.clusterID == c && r.category == col) = [] := by
        apply List.filter_eq_nil_iff.mpr
        intro r hr
        rcases List.mem_map.mp hr with ⟨v, hv, rfl⟩
        simp [hc2]
      rw [hfe, List.nil_append]
      by_cases hcL : c ∈ L
      · rw [if_pos hcL, if_pos (by simp [hcL])]
      · have hnotc : c ∉ c2 :: L := by
          simp only [List.mem_cons]
          rintro (h | h)
          · exact hc2 h.symm
          · exact hcL h
        rw [if_neg hcL, if_neg hnotc]

theorem sum_map_add_const {α : Type} (l : List α) (f : α → ℚ) (k : ℚ) :
    (l.map (fun v => f v + k)).sum = (l.map f).sum + l.length * k := by
  induction l with
  | nil => simp
  | cons a as ih => simp [ih]; ring

theorem sum_map_mul_const {α : Type} (l : List α) (f : α → ℚ) (k : ℚ) :
    (l.map (fun v => f v * k)).sum = (l.map f).sum * k := by
  induction l with
  | nil => simp
  | cons a as ih => simp [ih]; ring

theorem countVal_eq_count (rows : List DeckTraitRow) (c : ℤ) (col v : String) :
    countVal rows c col v
      = ((rows.filter (fun r => r.clusterID == c)).map (fun r => getCol r col)).count v := by
  unfold countVal
  rw [List.count_eq_countP, List.countP_map]
  rw [← List.countP_eq_length_filter]
  rfl

theorem sum_countVal (rows : List DeckTraitRow) (c : ℤ) (col : String) :
    ((valuesOf rows c col).map (fun v => countVal rows c col v)).sum
      = clusterSize rows c := by
  have hperm : ((valuesOf rows c col).map (fun v => countVal rows c col v)).Perm
      ((((rows.filter (fun r => r.clusterID == c)).map
          (fun r => getCol r col)).dedup).map (fun v => countVal rows c col v)) :=
    (List.perm_insertionSort _ _).map _
  rw [hperm.sum_eq]
  have : ∀ (l : List String),
      (l.map (fun v => countVal rows c col v)).sum
        = (l.map (fun v =>
            ((rows.filter (fun r => r.clusterID == c)).map
              (fun r => getCol r col)).count v)).sum := by
    intro l
    congr 1
    apply List.map_congr_left
    intro v _
    exact countVal_eq_count rows c col v
  rw [this]
  rw [List.sum_map_count_dedup_eq_length]
  simp [clusterSize]

theorem clusterSize_eq_of_single (rows : List DeckTraitRow) (c : ℤ)
    (h1 : ((rows.map (fun r => r.clusterID)).dedup).length = 1)
    (hpos : 0 < clusterSize rows c) : clusterSize rows c = rows.length := by
  unfold clusterSize at hpos ⊢
  obtain ⟨r0, hr0mem, hr0c⟩ : ∃ r ∈ rows, (r.clusterID == c) = true := by
    rcases hfilter : rows.filter (fun r => r.clusterID == c) with _ | ⟨r0, rest⟩
    · rw [hfilter] at hpos; simp at hpos
    · have hmem : r0 ∈ rows.filter (fun r => r.clusterID == c) := by rw [hfilter]; simp
      exact ⟨r0, List.mem_of_mem_filter hmem, (List.mem_filter.mp hmem).2⟩
  rcases hdd : (rows.map (fun r => r.clusterID)).dedup with _ | ⟨a, rest⟩
  · rw [hdd] at h1; simp at h1
  · have hrestnil : rest = [] := by
      rw [hdd] at h1
      simpa using h1
    subst hrestnil
    have hall : ∀ x ∈ rows.map (fun r => r.clusterID), x = a := by
      intro x hx
      have hm := List.mem_dedup.mpr hx
      rw [hdd] at hm
      simpa using hm
    have hca : c = a := by
      have h := hall r0.clusterID (List.mem_map_of_mem _ hr0mem)
      rw [← h]
      exact (beq_iff_eq.mp hr0c).symm
    have hfe : rows.filter (fun r => r.clusterID == c) = rows := by
      apply List.filter_eq_self.mpr
      intro r hr
      have h := hall r.clusterID (List.mem_map_of_mem _ hr)
      rw [beq_iff_eq, h, hca]
    rw [hfe]

theorem sum_percent_over_values (rows : List DeckTraitRow) (c : ℤ) (col : String) :
    2 * ((valuesOf rows c col).map
        (fun v => percentOf rows (((rows.map (fun r => r.clusterID)).dedup).length)
          c col v)).sum
      ≤ 200 + ((valuesOf rows c col).length : ℤ) := by
  rcases hvnil : valuesOf rows c col with _ | ⟨v0, vrest⟩
  · simp
  · have hvne : valuesOf rows c col ≠ [] := by rw [hvnil]; simp
    rw [← hvnil]
    have hTpos : 0 < clusterSize rows c := by
      by_contra hT
      have hT0 : clusterSize rows c = 0 := by omega
      have : ((valuesOf rows c col).map (fun v => countVal rows c col v)).sum = 0 := by
        rw [sum_countVal]; exact hT0
      have hlen0 : (rows.filter (fun r => r.clusterID == c)).length = 0 := hT0
      have hnil2 : rows.filter (fun r => r.clusterID == c) = [] :=
        List.eq_nil_of_length_eq_zero hlen0
      have : valuesOf rows c col = [] := by
        unfold valuesOf dedupSortStr
        rw [hnil2]
        simp
      exact hvne this
    set T : ℕ := clusterSize rows c with hT
    -- all percentages are computed against the cluster size, in both branches
    have hpct : ∀ v, percentOf rows (((rows.map (fun r => r.clusterID)).dedup).length)
        c col v = roundHE ((countVal rows c col v : ℚ) / (T : ℚ) * 100) := by
      intro v
      unfold percentOf
      split_ifs with h1
      · have h2 : clusterSize rows c = rows.length :=
          clusterSize_eq_of_single rows c h1 (by rw [← hT]; exact hTpos)
        rw [← h2, ← hT]
      · rw [← hT]
    -- rational bound on the sum
    have hQ : (((valuesOf rows c col).map
        (fun v => ((percentOf rows (((rows.map (fun r => r.clusterID)).dedup).length)
          c col v : ℤ) : ℚ))).sum)
        ≤ 100 + ((valuesOf rows c col).length : ℚ) / 2 := by
      have hstep : ∀ v ∈ valuesOf rows c col,
          ((percentOf rows (((rows.map (fun r => r.clusterID)).dedup).length)
            c col v : ℤ) : ℚ)
            ≤ (countVal rows c col v : ℚ) * (100 / (T : ℚ)) + 1/2 := by
        intro v _
        rw [hpct v]
        have h := roundHE_le_add_half ((countVal rows c col v : ℚ) / (T : ℚ) * 100)
        have heq : (countVal rows c col v : ℚ) / (T : ℚ) * 100
            = (countVal rows c col v : ℚ) * (100 / (T : ℚ)) := by ring
        calc ((roundHE ((countVal rows c col v : ℚ) / (T : ℚ) * 100) : ℤ) : ℚ)
            ≤ (countVal rows c col v : ℚ) / (T : ℚ) * 100 + 1/2 := h
          _ = (countVal rows c col v : ℚ) * (100 / (T : ℚ)) + 1/2 := by rw [heq]
      have h1 := List.sum_le_sum hstep
      have h2 : ((valuesOf rows c col).map
          (fun v => (countVal rows c col v : ℚ) * (100 / (T : ℚ)) + 1/2)).sum
          = ((valuesOf rows c col).map
              (fun v => (countVal rows c col v : ℚ))).sum * (100 / (T : ℚ))
            + ((valuesOf rows c col).length : ℚ) * (1/2) := by
        rw [sum_map_add_const]
        rw [sum_map_mul_const]
      have h3 : ((valuesOf rows c col).map
          (fun v => (countVal rows c col v : ℚ))).sum = (T : ℚ) := by
        have hcast : ((valuesOf rows c col).map
            (fun v => (countVal rows c col v : ℚ))).sum
            = ((((valuesOf rows c col).map
                (fun v => countVal rows c col v)).sum : ℕ) : ℚ) := by
          rw [Nat.cast_list_sum, List.map_map]
          rfl
        rw [hcast, sum_countVal]
      have hTne : (T : ℚ) ≠ 0 := by
        have : (0:ℚ) < (T:ℚ) := by exact_mod_cast hTpos
        linarith
      have h4 : (T : ℚ) * (100 / (T : ℚ)) = 100 := by field_simp
      calc ((valuesOf rows c col).map
          (fun v => ((percentOf rows (((rows.map (fun r => r.clusterID)).dedup).length)
            c col v : ℤ) : ℚ))).sum
          ≤ ((valuesOf rows c col).map
              (fun v => (countVal rows c col v : ℚ) * (100 / (T : ℚ)) + 1/2)).sum := h1
        _ = ((valuesOf rows c col).map
              (fun v => (countVal rows c col v : ℚ))).sum * (100 / (T : ℚ))
            + ((valuesOf rows c col).length : ℚ) * (1/2) := h2
        _ = 100 + ((valuesOf rows c col).length : ℚ) / 2 := by rw [h3, h4]; ring
    have hcast2 : ((((valuesOf rows c col).map
        (fun v => percentOf rows (((rows.map (fun r => r.clusterID)).dedup).length)
          c col v)).sum : ℤ) : ℚ)
        = (((valuesOf rows c col).map
            (fun v => ((percentOf rows (((rows.map (fun r => r.clusterID)).dedup).length)
              c col v : ℤ) : ℚ))).sum) := by
      rw [Int.cast_list_sum, List.map_map]
      rfl
    have hfinal : (2 : ℚ) * ((((valuesOf rows c col).map
        (fun v => percentOf rows (((rows.map (fun r => r.clusterID)).dedup).length)
          c col v)).sum : ℤ) : ℚ)
        ≤ 200 + ((valuesOf rows c col).length : ℚ) := by
      rw [hcast2]
      linarith
    exact_mod_cast hfinal

theorem perColumn_count_bound (rows : List DeckTraitRow) (ncl topn : ℕ) (mp : ℤ)
    (col : String) (c : ℤ) (cat : String) :
    ((perColumnTraits rows ncl topn mp col).filter
      (fun r => r.clusterID == c && r.category == cat)).length ≤ topn := by
  have h1 : ((perColumnTraits rows ncl topn mp col).filter
      (fun r => r.clusterID == c && r.category == cat)).length
      ≤ ((perColumnTraits rows ncl topn mp col).filter
        (fun r => r.clusterID == c)).length := by
    rw [← List.countP_eq_length_filter, ← List.countP_eq_length_filter]
    apply List.countP_mono_left
    intro r _ hr
    rw [Bool.and_eq_true] at hr
    exact hr.1
  have h2 := headPerCluster_count topn c
    ((sortTraitRows (groupRows rows ncl col)).filter (fun r => decide (mp ≤ r.percent))) []
  simp only [List.lookup, Option.getD_none, Nat.sub_zero] at h2
  exact le_trans h1 h2

theorem perColumn_filter_nil (rows : List DeckTraitRow) (ncl topn : ℕ) (mp : ℤ)
    (col : String) (c : ℤ) (cat : String) (hne : col ≠ cat) :
    (perColumnTraits rows ncl topn mp col).filter
      (fun r => r.clusterID == c && r.category == cat) = [] := by
  apply List.filter_eq_nil_iff.mpr
  intro r hr
  have hcat := (groupRows_shape rows ncl col r
    (perColumnTraits_mem rows ncl topn mp col r hr).2).1
  simp [hcat, hne]

theorem perColumn_sum_bound (rows : List DeckTraitRow) (topn : ℕ) (mp : ℤ)
    (col : String) (c : ℤ) :
    2 * (((perColumnTraits rows (((rows.map (fun r => r.clusterID)).dedup).length)
        topn mp col).filter (fun r => r.clusterID == c && r.category == col)).map
      (fun r => r.percent)).sum
      ≤ 200 + ((valuesOf rows c col).length : ℤ) := by
  have hnn : ∀ r ∈ groupRows rows (((rows.map (fun r => r.clusterID)).dedup).length) col,
      0 ≤ r.percent := by
    intro r hr
    obtain ⟨-, c2, v, -, -, rfl⟩ := groupRows_shape _ _ _ r hr
    exact percentOf_nonneg _ _ _ _ _
  have h1 := subperm_filter_map_sum_le _ _
    (fun r => r.clusterID == c && r.category == col)
    (perColumnTraits_subperm rows (((rows.map (fun r => r.clusterID)).dedup).length)
      topn mp col) hnn
  have hnodup : (clustersOfTable rows).Nodup := by
    unfold clustersOfTable dedupSortInt
    exact ((List.perm_insertionSort _ _).nodup_iff).mpr (List.nodup_dedup _)
  have h2 := filter_blocks rows (((rows.map (fun r => r.clusterID)).dedup).length)
    col c (clustersOfTable rows) hnodup
  unfold groupRows at h1
  rw [h2] at h1
  by_cases hc : c ∈ clustersOfTable rows
  · rw [if_pos hc] at h1
    have h3 : ((((valuesOf rows c col).map
        (fun v => TraitRow.mk c col v
          (percentOf rows (((rows.map (fun r => r.clusterID)).dedup).length) c col v))).map
          (fun r => r.percent)).sum)
        = ((valuesOf rows c col).map
            (fun v => percentOf rows (((rows.map (fun r => r.clusterID)).dedup).length)
              c col v)).sum := by
      rw [List.map_map]
      rfl
    rw [h3] at h1
    have h4 := sum_percent_over_values rows c col
    omega
  · rw [if_neg hc] at h1
    simp only [List.filter_nil, List.map_nil, List.sum_nil] at h1
    have hn : (0:ℤ) ≤ ((valuesOf rows c col).length : ℤ) := Int.natCast_nonneg _
    omega

/-- C2 (amended): every percentage returned by `get_cluster_traits` is a
non-negative integer at least `min_perc`; when the requested category columns
are pairwise distinct, at most `topn` rows are returned per
`(cluster, category)` pair, and twice the per-`(cluster, category)` sum of
the returned percentages is at most `200` plus the number of distinct trait
values in that group — i.e. the sum may exceed 100, but by at most half a
percentage point per distinct value, an excess forced by the half-to-even
rounding of each value's exact share. -/
theorem C2_cluster_traits (df : DeckTable) (topn : ℕ) (min_perc : ℤ)
    (drop_categories columnsArg : List String) (out : List TraitRow)
    (hok : get_cluster_traits df topn min_perc drop_categories columnsArg = .ok out) :
    (∀ r ∈ out, 0 ≤ r.percent ∧ min_perc ≤ r.percent) ∧
    ((columnsArg.filter (fun c2 => !(drop_categories.contains c2))).Nodup →
      ∀ (c : ℤ) (cat : String),
        ((out.filter (fun r => r.clusterID == c && r.category == cat)).length ≤ topn) ∧
        2 * ((out.filter (fun r => r.clusterID == c && r.category == cat)).map
            (fun r => r.percent)).sum
          ≤ 200 + ((valuesOf df.rows c cat).length : ℤ)) := by
  have hout : ((columnsArg.filter (fun c2 => !(drop_categories.contains c2))).map
      (perColumnTraits df.rows (((df.rows.map (fun r => r.clusterID)).dedup).length)
        topn min_perc)).flatten = out := by
    unfold get_cluster_traits at hok
    split_ifs at hok
    all_goals simpa using hok
  subst hout
  constructor
  · intro r hr
    rcases List.mem_flatten.mp hr with ⟨l, hl, hrl⟩
    rcases List.mem_map.mp hl with ⟨col, hcol, rfl⟩
    exact ⟨perColumnTraits_percent_nonneg _ _ _ _ _ r hrl,
      (perColumnTraits_mem _ _ _ _ _ r hrl).1⟩
  · intro hnd c cat
    constructor
    · rw [length_filter_flatten, List.map_map]
      have hbound := sum_single_nat cat
        (fun col => ((perColumnTraits df.rows
            (((df.rows.map (fun r => r.clusterID)).dedup).length) topn min_perc
            col).filter (fun r => r.clusterID == c && r.category == cat)).length)
        (columnsArg.filter (fun c2 => !(drop_categories.contains c2))) hnd
        (fun col _ hne => by
          have h0 := perColumn_filter_nil df.rows
            (((df.rows.map (fun r => r.clusterID)).dedup).length)
            topn min_perc col c cat hne
          simp [h0])
      exact le_trans hbound (perColumn_count_bound df.rows _ topn min_perc cat c cat)
    · rw [sum_map_filter_flatten, List.map_map]
      have hnng : 0 ≤ (((perColumnTraits df.rows
          (((df.rows.map (fun r => r.clusterID)).dedup).length) topn min_perc
          cat).filter (fun r => r.clusterID == c && r.category == cat)).map
            (fun r => r.percent)).sum := by
        apply List.sum_nonneg
        intro x hx
        rcases List.mem_map.mp hx with ⟨r, hrf, rfl⟩
        exact perColumnTraits_percent_nonneg _ _ _ _ _ r (List.mem_of_mem_filter hrf)
      have hbound := sum_single_int cat
        (fun col => (((perColumnTraits df.rows
            (((df.rows.map (fun r => r.clusterID)).dedup).length) topn min_perc
            col).filter (fun r => r.clusterID == c && r.category == cat)).map
              (fun r => r.percent)).sum)
        hnng
        (columnsArg.filter (fun c2 => !(drop_categories.contains c2))) hnd
        (fun col _ hne => by
          have h0 := perColumn_filter_nil df.rows
            (((df.rows.map (fun r => r.clusterID)).dedup).length)
            topn min_perc col c cat hne
          simp [h0])
      have hbound2 : (((columnsArg.filter (fun c2 => !(drop_categories.contains c2))).map
          (fun col => (((perColumnTraits df.rows
            (((df.rows.map (fun r => r.clusterID)).dedup).length) topn min_perc
            col).filter (fun r => r.clusterID == c && r.category == cat)).map
              (fun r => r.percent)).sum)).sum)
          ≤ (((perColumnTraits df.rows
            (((df.rows.map (fun r => r.clusterID)).dedup).length) topn min_perc
            cat).filter (fun r => r.clusterID == c && r.category == cat)).map
              (fun r => r.percent)).sum := hbound
      have hfinal := perColumn_sum_bound df.rows topn min_perc cat c
      show 2 * (((columnsArg.filter (fun c2 => !(drop_categories.contains c2))).map
          (fun col => (((perColumnTraits df.rows
            (((df.rows.map (fun r => r.clusterID)).dedup).length) topn min_perc
            col).filter (fun r => r.clusterID == c && r.category == cat)).map
              (fun r => r.percent)).sum)).sum)
        ≤ 200 + ((valuesOf df.rows c cat).length : ℤ)
      omega

/-- The six-deck single-cluster table on which the original claim fails. -/
def dfC2 : DeckTable :=
  ⟨["clusterID", "commander-partnerID"],
   [⟨0, [("commander-partnerID", "c1")]⟩, ⟨0, [("commander-partnerID", "c2")]⟩,
    ⟨0, [("commander-partnerID", "c3")]⟩, ⟨0, [("commander-partnerID", "c4")]⟩,
    ⟨0, [("commander-partnerID", "c5")]⟩, ⟨0, [("commander-partnerID", "c6")]⟩]⟩

/-- Output of `get_cluster_traits` on `dfC2`: six distinct singleton values,
each rounding to 17 percent. -/
def outC2 : List TraitRow :=
  [⟨0, "commander-partnerID", "c1", 17⟩, ⟨0, "commander-partnerID", "c2", 17⟩,
   ⟨0, "commander-partnerID", "c3", 17⟩, ⟨0, "commander-partnerID", "c4", 17⟩,
   ⟨0, "commander-partnerID", "c5", 17⟩, ⟨0, "commander-partnerID", "c6", 17⟩]

/-- C2 counterexample: six decks in one cluster, each with a distinct
commander value; every share is 100/6 and rounds to 17, so the returned
percentages for `(cluster 0, commander-partnerID)` sum to 102 > 100 even
though both filters are at their defaults — refuting the claimed sum bound
of 100. -/
theorem C2_cluster_traits_counterexample :
    get_cluster_traits dfC2 20 1 [] ["commander-partnerID"] = .ok outC2 ∧
    ((outC2.filter (fun r => r.clusterID == 0 &&
        r.category == "commander-partnerID")).map (fun r => r.percent)).sum = 102 ∧
    ¬ (((outC2.filter (fun r => r.clusterID == 0 &&
        r.category == "commander-partnerID")).map (fun r => r.percent)).sum ≤ 100) := by
  refine ⟨?_, ?_, ?_⟩ <;> with_unfolding_all decide

/-- Witness for C2 at the concrete table `dfC2`: all percentages are
non-negative and at least `min_perc = 1`, at most 20 rows are returned for
`(cluster 0, commander-partnerID)`, and twice their sum (204) is within
`200 + 6`. -/
theorem C2_cluster_traits_witness :
    (∀ r ∈ outC2, 0 ≤ r.percent ∧ 1 ≤ r.percent) ∧
    (((outC2.filter (fun r => r.clusterID == 0 &&
        r.category == "commander-partnerID")).length ≤ 20) ∧
      2 * ((outC2.filter (fun r => r.clusterID == 0 &&
          r.category == "commander-partnerID")).map (fun r => r.percent)).sum
        ≤ 200 + ((valuesOf dfC2.rows 0 "commander-partnerID").length : ℤ)) :=
  ⟨(C2_cluster_traits dfC2 20 1 [] ["commander-partnerID"] outC2
      (by with_unfolding_all decide)).1,
   (C2_cluster_traits dfC2 20 1 [] ["commander-partnerID"] outC2
      (by with_unfolding_all decide)).2 (by with_unfolding_all decide)
     0 "commander-partnerID"⟩

/-! ### C3: card counts and play rates

Embeds `ClusterAnalysisService.get_cluster_card_counts` and
`ClusterAnalysisService.get_defining_cards`
(`domain/services/cluster_analysis_service.py`).  `card_idx_lookup` is
rendered by the ordered key list `cards` (column `j` is card `cards[j]`, its
looked-up index being its position, as in the aggregate's construction); the
date/colour-identity reference matrices are boolean matrices with total index
lookup functions.  The pandas `DataFrame(np.zeros((max_cluster, n)),
index=clusters, ...)` construction requires the distinct cluster labels to be
exactly `0..max_cluster-1`; any other label set (a `-1` label, a gap, an
empty table) makes the source raise, rendered as `Except.error`.  Floating
point play-rate/synergy cells are modelled by `FVal` (finite rational,
infinities, NaN), since `x/0` yields a signed infinity and `0/0` a NaN that
`fillna(0)` replaces. -/

/-- Deck metadata row as consumed by the card-count stage. -/
structure MDeck where
  deckID : ℤ
  clusterID : ℤ
  commanderID : String
  partnerID : String
  companionID : String
deriving DecidableEq

/-- Raw play count of column `j` among the member decks of cluster `c`
(`decklist_matrix[cluster_rows, :].sum(axis=0)`). -/
def rawCount (decks : List MDeck) (matrix : List (List ℕ)) (c : ℤ) (j : ℕ) : ℕ :=
  (((decks.enum).filter (fun p => p.2.clusterID == c)).map
    (fun p => (matrix.getD p.1 []).getD j 0)).sum

/-- All commander, partner and companion names of the cluster's decks
(the summed `value_counts` index, multiplicities included). -/
def commanderNames (decks : List MDeck) (c : ℤ) : List String :=
  ((decks.filter (fun d => d.clusterID == c)).map (fun d => d.commanderID)) ++
  ((decks.filter (fun d => d.clusterID == c)).map (fun d => d.partnerID)) ++
  ((decks.filter (fun d => d.clusterID == c)).map (fun d => d.companionID))

/-- Number of commander/partner/companion appearances of `name` in cluster
`c` (the amount subtracted from the raw count; the empty name is dropped). -/
def commanderSubtract (decks : List MDeck) (c : ℤ) (name : String) : ℕ :=
  if name = "" then 0 else (commanderNames decks c).count name

/-- Actual play count of column `j` in cluster `c`: the raw count, minus the
commander appearances when `include_commanders` is set.  The subtraction can
drive the count negative. -/
def actualCount (decks : List MDeck) (matrix : List (List ℕ)) (cards : List String)
    (include_commanders : Bool) (c : ℤ) (j : ℕ) : ℤ :=
  (rawCount decks matrix c j : ℤ) -
    (if include_commanders then (commanderSubtract decks c (cards.getD j "") : ℤ) else 0)

/-- `np.array_split` of `l` into `k` parts: the first `l.length % k` parts
get one extra element. -/
def arraySplitAux {α : Type} : ℕ → ℕ → ℕ → List α → List (List α)
  | 0, _, _, _ => []
  | k + 1, q, r, l =>
    (l.take (if 0 < r then q + 1 else q)) ::
      arraySplitAux k q (r - 1) (l.drop (if 0 < r then q + 1 else q))

def arraySplit {α : Type} (l : List α) (k : ℕ) : List (List α) :=
  arraySplitAux k (l.length / k) (l.length % k) l

/-- Can the deck with id `did` legally play `card`: release-date bucket check
via the date matrix, and (unless the colour rule is `ignore`) colour-identity
containment via the CI matrix. -/
def canPlay (date_matrix ci_matrix : List (List Bool)) (deckDate : ℤ → ℕ)
    (cardDate : String → ℕ) (deckCI : ℤ → ℕ) (cardCI : String → ℕ)
    (color_rule : String) (card : String) (did : ℤ) : Bool :=
  ((date_matrix.getD (deckDate did) []).getD (cardDate card) false) &&
    (if color_rule ≠ "ignore" then
      (ci_matrix.getD (deckCI did) []).getD (cardCI card) false
    else true)

/-- Deck ids of the cluster's member decks, in row order. -/
def clusterDeckIDs (decks : List MDeck) (c : ℤ) : List ℤ :=
  (decks.filter (fun d => d.clusterID == c)).map (fun d => d.deckID)

/-- Counterfactual could-have-played count of `card` in cluster `c`, computed
over `np.array_split` chunks of the member decks as the source does for
memory bounds. -/
def couldPlayCount (decks : List MDeck) (date_matrix ci_matrix : List (List Bool))
    (deckDate : ℤ → ℕ) (cardDate : String → ℕ) (deckCI : ℤ → ℕ) (cardCI : String → ℕ)
    (color_rule : String) (chunksize : ℕ) (c : ℤ) (card : String) : ℕ :=
  ((arraySplit (clusterDeckIDs decks c)
      ((clusterDeckIDs decks c).length / chunksize + 1)).map
    (fun chunk =>
      (chunk.filter
        (canPlay date_matrix ci_matrix deckDate cardDate deckCI cardCI
          color_rule card)).length)).sum

/-- Could-play value actually used for cluster `c`, column `j`: the
precomputed row when one was supplied, the chunked counterfactual count
otherwise. -/
def couldValue (decks : List MDeck) (cards : List String)
    (date_matrix ci_matrix : List (List Bool)) (deckDate : ℤ → ℕ)
    (cardDate : String → ℕ) (deckCI : ℤ → ℕ) (cardCI : String → ℕ)
    (color_rule : String) (chunksize : ℕ) (precomputed : List (ℤ × List ℕ))
    (c : ℤ) (j : ℕ) : ℕ :=
  match precomputed.lookup c with
  | some vals => vals.getD j 0
  | none =>
    couldPlayCount decks date_matrix ci_matrix deckDate cardDate deckCI cardCI
      color_rule chunksize c (cards.getD j "")

/-- Shallow embedding of `ClusterAnalysisService.get_cluster_card_counts`:
returns the per-cluster actual-count matrix and the clipped non-play matrix,
or an error where the source raises (empty table, non-dense cluster labels,
a commander name missing from the card lookup). -/
def get_cluster_card_counts (decks : List MDeck) (matrix : List (List ℕ))
    (cards : List String) (date_matrix ci_matrix : List (List Bool))
    (deckDate : ℤ → ℕ) (cardDate : String → ℕ) (deckCI : ℤ → ℕ) (cardCI : String → ℕ)
    (color_rule : String) (include_commanders : Bool) (chunksize : ℕ)
    (precomputed : List (ℤ × List ℕ)) :
    Except String (List (List ℤ) × List (List ℤ)) :=
  if decks.isEmpty then .error "empty commander_decks"
  else if dedupSortInt (decks.map (fun d => d.clusterID))
      ≠ (List.range (dedupSortInt (decks.map (fun d => d.clusterID))).length).map
          Int.ofNat then
    .error "cluster labels are not a dense 0..max range"
  else if include_commanders &&
      (dedupSortInt (decks.map (fun d => d.clusterID))).any (fun c =>
        (commanderNames decks c).any
          (fun name => name != "" && !(cards.contains name))) then
    .error "commander name missing from card lookup"
  else
    .ok
      ((List.range (dedupSortInt (decks.map (fun d => d.clusterID))).length).map
        (fun ci => (List.range cards.length).map
          (fun j => actualCount decks matrix cards include_commanders (Int.ofNat ci) j)),
       (List.range (dedupSortInt (decks.map (fun d => d.clusterID))).length).map
        (fun ci => (List.range cards.length).map
          (fun j =>
            max 0
              ((couldValue decks cards date_matrix ci_matrix deckDate cardDate deckCI
                  cardCI color_rule chunksize precomputed (Int.ofNat ci) j : ℤ) -
                actualCount decks matrix cards include_commanders (Int.ofNat ci) j))))

/-- Value of a float cell in the play-rate/synergy tables: finite rational,
a signed infinity, or NaN. -/
inductive FVal
  | nan
  | neginf
  | fin (q : ℚ)
  | posinf
deriving DecidableEq

/-- Float division as it appears in the play-rate formula: `0/0` is NaN and
`x/0` with `x ≠ 0` a signed infinity. -/
def fdiv (a b : ℚ) : FVal :=
  if b = 0 then
    if a = 0 then .nan else if 0 < a then .posinf else .neginf
  else .fin (a / b)

/-- Embedding of `fillna(0)`. -/
def fillna0 : FVal → FVal
  | .nan => .fin 0
  | x => x

/-- Float subtraction on table values (`synergy = play_rate − other_rate`). -/
def fsub : FVal → FVal → FVal
  | .nan, _ => .nan
  | .neginf, .nan => .nan
  | .posinf, .nan => .nan
  | .fin _, .nan => .nan
  | .fin a, .fin b => .fin (a - b)
  | .fin _, .neginf => .posinf
  | .fin _, .posinf => .neginf
  | .neginf, .fin _ => .neginf
  | .posinf, .fin _ => .posinf
  | .neginf, .neginf => .nan
  | .posinf, .posinf => .nan
  | .neginf, .posinf => .neginf
  | .posinf, .neginf => .posinf

/-- Embedding of `round(2)`: half-to-even at two decimals on finite values;
infinities and NaN pass through. -/
def fround2 : FVal → FVal
  | .fin q => .fin ((roundHE (q * 100) : ℚ) / 100)
  | x => x

/-- Row of a per-cluster table selected by the integer cluster label
(`.loc[clust]`; labels are the row positions in the dense-label case). -/
def rowAt (m : List (List ℤ)) (c : ℤ) : List ℤ :=
  if c < 0 then [] else m.getD c.toNat []

/-- Entry of `play_rate_df = (card/(card+noncard)).fillna(0)`. -/
def playRateAt (card_df noncard_df : List (List ℤ)) (c : ℤ) (j : ℕ) : FVal :=
  fillna0 (fdiv ((rowAt card_df c).getD j 0 : ℚ)
    (((rowAt card_df c).getD j 0 : ℚ) + ((rowAt noncard_df c).getD j 0 : ℚ)))

/-- Column sum over all clusters (`cluster_card_df.sum(axis=0)`). -/
def colSum (m : List (List ℤ)) (j : ℕ) : ℤ := (m.map (fun row => row.getD j 0)).sum

/-- Entry of the rest-of-population play rate
(`(play_other/(nonplay_other+play_other)).fillna(0)`). -/
def otherRateAt (card_df noncard_df : List (List ℤ)) (c : ℤ) (j : ℕ) : FVal :=
  fillna0 (fdiv ((colSum card_df j - (rowAt card_df c).getD j 0 : ℤ) : ℚ)
    (((colSum noncard_df j - (rowAt noncard_df c).getD j 0 : ℤ) : ℚ) +
      ((colSum card_df j - (rowAt card_df c).getD j 0 : ℤ) : ℚ)))

/-- Entry of the synergy table (`play_rate_df - other_play_rate`). -/
def synergyAt (card_df noncard_df : List (List ℤ)) (c : ℤ) (j : ℕ) : FVal :=
  fsub (playRateAt card_df noncard_df c j) (otherRateAt card_df noncard_df c j)

/-- Descending order on float cells as pandas `sort_values(ascending=False)`
arranges them: NaN last, then by value with `+inf` first. -/
def fvalDescLe : FVal → FVal → Prop
  | .nan, .nan => True
  | .nan, _ => False
  | _, .nan => True
  | .posinf, _ => True
  | .fin _, .posinf => False
  | .neginf, .posinf => False
  | .fin x, .fin y => y ≤ x
  | .fin _, .neginf => True
  | .neginf, .fin _ => False
  | .neginf, .neginf => True

instance : DecidableRel fvalDescLe := fun a b => by
  unfold fvalDescLe
  cases a <;> cases b <;> simp <;> infer_instance

/-- Row of the defining-cards output table; `synergy` is present only when it
was computed. -/
structure DefCardRow where
  clusterID : ℤ
  card : String
  play_rate : FVal
  synergy : Option FVal
deriving DecidableEq

/-- Output-row sort key: synergy descending when present, play rate
descending otherwise. -/
def rowSortLe (useSyn : Bool) (a b : DefCardRow) : Prop :=
  if useSyn then fvalDescLe (a.synergy.getD .nan) (b.synergy.getD .nan)
  else fvalDescLe a.play_rate b.play_rate

instance (useSyn : Bool) : DecidableRel (rowSortLe useSyn) := fun a b => by
  unfold rowSortLe
  split_ifs <;> infer_instance

/-- The defining-cards rows of one cluster: the `n_scope` columns of highest
play rate, re-sorted by synergy (or play rate). -/
def definingRowsFor (cards : List String) (card_df noncard_df : List (List ℤ))
    (useSyn : Bool) (n_scope : ℕ) (c : ℤ) : List DefCardRow :=
  List.insertionSort (rowSortLe useSyn)
    (((List.insertionSort
        (fun i j => fvalDescLe (playRateAt card_df noncard_df c i)
          (playRateAt card_df noncard_df c j))
        (List.range cards.length)).take n_scope).map
      (fun j =>
        ⟨c, cards.getD j "", fround2 (playRateAt card_df noncard_df c j),
         if useSyn then some (fround2 (synergyAt card_df noncard_df c j)) else none⟩))

/-- Shallow embedding of `ClusterAnalysisService.get_defining_cards`. -/
def get_defining_cards (decks : List MDeck) (cards : List String)
    (card_df noncard_df : List (List ℤ)) (include_synergy : Bool) (n_scope : ℕ) :
    List DefCardRow :=
  ((dedupSortInt (decks.map (fun d => d.clusterID))).map
    (definingRowsFor cards card_df noncard_df
      (include_synergy &&
        !((dedupSortInt (decks.map (fun d => d.clusterID))).length == 1))
      n_scope)).flatten

theorem getD_nonneg_of_all (l : List ℤ) (h : ∀ x ∈ l, 0 ≤ x) (j : ℕ) : 0 ≤ l.getD j 0 := by
  by_cases hj : j < l.length
  · rw [List.getD_eq_getElem l 0 hj]
    exact h _ (List.getElem_mem hj)
  · rw [List.getD_eq_default l 0 (by omega)]

theorem rowAt_getD_nonneg (m : List (List ℤ)) (hm : ∀ row ∈ m, ∀ x ∈ row, 0 ≤ x)
    (c : ℤ) (j : ℕ) : 0 ≤ (rowAt m c).getD j 0 := by
  unfold rowAt
  split_ifs with hneg
  · simp
  · apply getD_nonneg_of_all
    intro x hx
    by_cases hlen : c.toNat < m.length
    · rw [List.getD_eq_getElem m [] hlen] at hx
      exact hm _ (List.getElem_mem hlen) x hx
    · rw [List.getD_eq_default m [] (by omega)] at hx
      simp at hx

theorem playRateAt_bounds (card_df noncard_df : List (List ℤ))
    (hc : ∀ row ∈ card_df, ∀ x ∈ row, 0 ≤ x)
    (hn : ∀ row ∈ noncard_df, ∀ x ∈ row, 0 ≤ x) (c : ℤ) (j : ℕ) :
    ∃ q, playRateAt card_df noncard_df c j = .fin q ∧ 0 ≤ q ∧ q ≤ 1 := by
  have ha : (0:ℚ) ≤ ((rowAt card_df c).getD j 0 : ℚ) := by
    exact_mod_cast rowAt_getD_nonneg card_df hc c j
  have hb : (0:ℚ) ≤ ((rowAt noncard_df c).getD j 0 : ℚ) := by
    exact_mod_cast rowAt_getD_nonneg noncard_df hn c j
  unfold playRateAt fdiv
  split_ifs with hd hA0 hApos
  · exact ⟨0, rfl, le_refl 0, by norm_num⟩
  · exact absurd hApos (by linarith)
  · exact absurd (by linarith : ((rowAt card_df c).getD j 0 : ℚ) = 0) hA0
  · have hdpos : (0:ℚ) < ((rowAt card_df c).getD j 0 : ℚ)
        + ((rowAt noncard_df c).getD j 0 : ℚ) := by
      rcases lt_or_eq_of_le (by linarith :
        (0:ℚ) ≤ ((rowAt card_df c).getD j 0 : ℚ)
          + ((rowAt noncard_df c).getD j 0 : ℚ)) with h | h
      · exact h
      · exact absurd h.symm hd
    refine ⟨_, rfl, ?_, ?_⟩
    · exact div_nonneg ha (le_of_lt hdpos)
    · rw [div_le_one hdpos]
      linarith

theorem fround2_fin_bounds (q : ℚ) (h0 : 0 ≤ q) (h1 : q ≤ 1) :
    ∃ q2, fround2 (.fin q) = .fin q2 ∧ 0 ≤ q2 ∧ q2 ≤ 1 := by
  refine ⟨(roundHE (q * 100) : ℚ) / 100, rfl, ?_, ?_⟩
  · apply div_nonneg _ (by norm_num)
    exact_mod_cast roundHE_nonneg (q * 100) (by positivity)
  · rw [div_le_one (by norm_num)]
    exact_mod_cast roundHE_le_of_le (q * 100) 100 (by push_cast; linarith)

theorem definingRowsFor_rate (cards : List String) (card_df noncard_df : List (List ℤ))
    (useSyn : Bool) (n_scope : ℕ) (c : ℤ) (r : DefCardRow)
    (hr : r ∈ definingRowsFor cards card_df noncard_df useSyn n_scope c) :
    ∃ j, r.play_rate = fround2 (playRateAt card_df noncard_df c j) := by
  unfold definingRowsFor at hr
  have h1 := (List.perm_insertionSort (rowSortLe useSyn) _).mem_iff.mp hr
  rcases List.mem_map.mp h1 with ⟨j, _, rfl⟩
  exact ⟨j, rfl⟩

/-- C3 (amended): the non-play counts produced by `get_cluster_card_counts`
are never negative (clipped at zero even when the actual count exceeds the
counterfactual), for any setting of `include_commanders`; and when
`include_commanders` is false — so that no commander subtraction can drive an
actual count negative — every play rate produced by `get_defining_cards` from
those outputs is a finite value in `[0, 1]`.  With `include_commanders` true
the subtraction can make an actual count negative and the play rate drops
below 0, as the counterexample shows. -/
theorem C3_noncard_nonneg_play_rate_bounds (decks : List MDeck)
    (matrix : List (List ℕ)) (cards : List String)
    (date_matrix ci_matrix : List (List Bool)) (deckDate : ℤ → ℕ)
    (cardDate : String → ℕ) (deckCI : ℤ → ℕ) (cardCI : String → ℕ)
    (color_rule : String) (include_commanders : Bool) (chunksize : ℕ)
    (precomputed : List (ℤ × List ℕ)) (card_df noncard_df : List (List ℤ))
    (include_synergy : Bool) (n_scope : ℕ)
    (hok : get_cluster_card_counts decks matrix cards date_matrix ci_matrix deckDate
      cardDate deckCI cardCI color_rule include_commanders chunksize precomputed
      = .ok (card_df, noncard_df)) :
    (∀ row ∈ noncard_df, ∀ x ∈ row, 0 ≤ x) ∧
    (include_commanders = false →
      ∀ r ∈ get_defining_cards decks cards card_df noncard_df include_synergy n_scope,
        ∃ q, r.play_rate = .fin q ∧ 0 ≤ q ∧ q ≤ 1) := by
  have hpq : ((List.range (dedupSortInt (decks.map (fun d => d.clusterID))).length).map
        (fun ci => (List.range cards.length).map
          (fun j => actualCount decks matrix cards include_commanders (Int.ofNat ci) j)),
      (List.range (dedupSortInt (decks.map (fun d => d.clusterID))).length).map
        (fun ci => (List.range cards.length).map
          (fun j =>
            max 0
              ((couldValue decks cards date_matrix ci_matrix deckDate cardDate deckCI
                  cardCI color_rule chunksize precomputed (Int.ofNat ci) j : ℤ) -
                actualCount decks matrix cards include_commanders (Int.ofNat ci) j))))
      = (card_df, noncard_df) := by
    unfold get_cluster_card_counts at hok
    split_ifs at hok
    all_goals injection hok with h2
  rw [Prod.mk.injEq] at hpq
  obtain ⟨hcdf, hndf⟩ := hpq
  subst hcdf
  subst hndf
  constructor
  · intro row hrow x hx
    rcases List.mem_map.mp hrow with ⟨ci, _, rfl⟩
    rcases List.mem_map.mp hx with ⟨j, _, rfl⟩
    exact le_max_left 0 _
  · intro hinc r hr
    have hcnn : ∀ row ∈ (List.range
        (dedupSortInt (decks.map (fun d => d.clusterID))).length).map
          (fun ci => (List.range cards.length).map
            (fun j => actualCount decks matrix cards include_commanders (Int.ofNat ci) j)),
        ∀ x ∈ row, 0 ≤ x := by
      intro row hrow x hx
      rcases List.mem_map.mp hrow with ⟨ci, _, rfl⟩
      rcases List.mem_map.mp hx with ⟨j, _, rfl⟩
      unfold actualCount
      rw [hinc]
      simp
    have hnnn : ∀ row ∈ (List.range
        (dedupSortInt (decks.map (fun d => d.clusterID))).length).map
          (fun ci => (List.range cards.length).map
            (fun j =>
              max 0
                ((couldValue decks cards date_matrix ci_matrix deckDate cardDate deckCI
                    cardCI color_rule chunksize precomputed (Int.ofNat ci) j : ℤ) -
                  actualCount decks matrix cards include_commanders (Int.ofNat ci) j))),
        ∀ x ∈ row, 0 ≤ x := by
      intro row hrow x hx
      rcases List.mem_map.mp hrow with ⟨ci, _, rfl⟩
      rcases List.mem_map.mp hx with ⟨j, _, rfl⟩
      exact le_max_left 0 _
    unfold get_defining_cards at hr
    rcases List.mem_flatten.mp hr with ⟨block, hblock, hrb⟩
    rcases List.mem_map.mp hblock with ⟨c, _, rfl⟩
    obtain ⟨j, hrj⟩ := definingRowsFor_rate _ _ _ _ _ c r hrb
    obtain ⟨q, hq, hq0, hq1⟩ := playRateAt_bounds _ _ hcnn hnnn c j
    rw [hq] at hrj
    obtain ⟨q2, hq2, hq20, hq21⟩ := fround2_fin_bounds q hq0 hq1
    exact ⟨q2, hrj.trans hq2, hq20, hq21⟩

/-- C3 counterexample input: one deck (id 10, cluster 0) whose commander `A`
is a known card column that the deck's matrix row does not contain. -/
def decksC3 : List MDeck := [⟨10, 0, "A", "", ""⟩]

/-- C3 counterexample: with `include_commanders = true` the commander
subtraction drives the actual count of card `A` to −1; the non-play count is
still clipped to 2 ≥ 0, but the play rate −1/(−1+2) = −1 emitted by
`get_defining_cards` lies outside `[0, 1]`, refuting the claimed bound. -/
theorem C3_play_rate_counterexample :
    get_cluster_card_counts decksC3 [[0]] ["A"] [[true]] [[true]]
      (fun _ => 0) (fun _ => 0) (fun _ => 0) (fun _ => 0) "ignore" true 1000 []
      = .ok ([[-1]], [[2]]) ∧
    get_defining_cards decksC3 ["A"] [[-1]] [[2]] true 200
      = [⟨0, "A", .fin (-1), none⟩] ∧
    ¬ (0 ≤ (-1 : ℚ)) := by
  refine ⟨?_, ?_, ?_⟩ <;> with_unfolding_all decide

/-- Witness for C3 at the concrete one-deck input with
`include_commanders = false`: the counts are `[[0]]`/`[[1]]`, the non-play
entries are non-negative and every emitted play rate is finite in `[0,1]`. -/
theorem C3_noncard_nonneg_play_rate_bounds_witness :
    (∀ row ∈ [[(1:ℤ)]], ∀ x ∈ row, 0 ≤ x) ∧
    (∀ r ∈ get_defining_cards decksC3 ["A"] [[0]] [[1]] true 200,
      ∃ q, r.play_rate = .fin q ∧ 0 ≤ q ∧ q ≤ 1) :=
  have h := C3_noncard_nonneg_play_rate_bounds decksC3 [[0]] ["A"] [[true]] [[true]]
    (fun _ => 0) (fun _ => 0) (fun _ => 0) (fun _ => 0) "ignore" false 1000 []
    [[0]] [[1]] true 200 (by with_unfolding_all decide)
  ⟨h.1, h.2 rfl⟩

/-! ### C6: representative-decklist selection

Embeds `ClusterAnalysisService.calculate_average_decklists`
(`domain/services/cluster_analysis_service.py`).  `decklist_matrix[...]
.tolil().rows` becomes the list of nonzero column indices per matrix row;
`idx_to_card` is the positional inverse of the card lookup;
`dict(zip(cards, values))` keeps the last occurrence of a duplicate card;
`np.percentile` uses linear interpolation, computed exactly on rationals;
`np.mean` of an empty decklist is NaN (`none`), which `idxmax` skips, and an
all-NaN score column makes pandas raise, rendered as `Except.error`.
`idxmax` returns the first (lowest positional label) row of maximal score. -/

/-- Deck rows of cluster `c`, with their original positional indices
(`commander_decks[commander_decks['clusterID'] == clust]` and `.index`). -/
def clusterMembers (decks : List MDeck) (c : ℤ) : List (ℕ × MDeck) :=
  (decks.enum).filter (fun p => p.2.clusterID == c)

/-- Nonzero column indices of matrix row `i` (`tolil().rows`). -/
def decklistCols (matrix : List (List ℕ)) (i : ℕ) : List ℕ :=
  ((matrix.getD i []).enum.filter (fun p => p.2 != 0)).map (fun p => p.1)

/-- Lookup in `dict(zip(keys, vals))`: the last binding of a key wins; a
missing card scores 0 (`val_lookup.get(c, 0)`). -/
def dictGetLast (pairs : List (String × ℚ)) (k : String) : ℚ :=
  ((pairs.reverse).lookup k).getD 0

/-- Row of the defining-cards table as consumed by the average-decklist
selection (finite float values). -/
structure DefRowQ where
  clusterID : ℤ
  card : String
  play_rate : ℚ
  synergy : ℚ
deriving DecidableEq

/-- The defining-cards table: its rows, and whether the synergy column is
present (`'synergy' in clust_cards.columns`). -/
structure DefTable where
  hasSynergy : Bool
  rows : List DefRowQ
deriving DecidableEq

def valLookupFor (defTable : DefTable) (c : ℤ) (k : String) : ℚ :=
  if defTable.hasSynergy then
    dictGetLast ((defTable.rows.filter (fun r => r.clusterID == c)).map
      (fun r => (r.card, r.synergy))) k
  else
    dictGetLast ((defTable.rows.filter (fun r => r.clusterID == c)).map
      (fun r => (r.card, r.play_rate))) k

/-- Size of the decklist at matrix row `i`. -/
def deckSize (matrix : List (List ℕ)) (i : ℕ) : ℕ := (decklistCols matrix i).length

/-- Mean card value of the decklist at matrix row `i`; `none` (NaN) for an
empty decklist. -/
def deckScore (matrix : List (List ℕ)) (cards : List String) (defTable : DefTable)
    (c : ℤ) (i : ℕ) : Option ℚ :=
  if deckSize matrix i = 0 then none
  else some ((((decklistCols matrix i).map
      (fun j => valLookupFor defTable c (cards.getD j ""))).sum)
    / (deckSize matrix i : ℚ))

/-- The per-cluster score table: positional label, score, size per member
deck (`score_df`). -/
def scoreRows (decks : List MDeck) (matrix : List (List ℕ)) (cards : List String)
    (defTable : DefTable) (c : ℤ) : List (ℕ × Option ℚ × ℕ) :=
  (clusterMembers decks c).enum.map (fun p =>
    (p.1, deckScore matrix cards defTable c p.2.1, deckSize matrix p.2.1))

/-- Exact `np.percentile` (linear interpolation) of natural-number data. -/
def percentileQ (xs : List ℕ) (p : ℚ) : ℚ :=
  if xs.length = 0 then 0
  else
    (((xs.map (fun n => (n : ℚ))).insertionSort (fun a b => a ≤ b)).getD
        (⌊p / 100 * ((xs.length : ℚ) - 1)⌋).toNat 0) +
      (p / 100 * ((xs.length : ℚ) - 1) - ⌊p / 100 * ((xs.length : ℚ) - 1)⌋) *
        (((xs.map (fun n => (n : ℚ))).insertionSort (fun a b => a ≤ b)).getD
            ((⌊p / 100 * ((xs.length : ℚ) - 1)⌋).toNat + 1)
            (((xs.map (fun n => (n : ℚ))).insertionSort (fun a b => a ≤ b)).getD
              (⌊p / 100 * ((xs.length : ℚ) - 1)⌋).toNat 0) -
          ((xs.map (fun n => (n : ℚ))).insertionSort (fun a b => a ≤ b)).getD
            (⌊p / 100 * ((xs.length : ℚ) - 1)⌋).toNat 0)

def sizeP20 (decks : List MDeck) (matrix : List (List ℕ)) (cards : List String)
    (defTable : DefTable) (c : ℤ) : ℚ :=
  percentileQ ((scoreRows decks matrix cards defTable c).map (fun t => t.2.2)) 20

def sizeP80 (decks : List MDeck) (matrix : List (List ℕ)) (cards : List String)
    (defTable : DefTable) (c : ℤ) : ℚ :=
  percentileQ ((scoreRows decks matrix cards defTable c).map (fun t => t.2.2)) 80

/-- Candidate rows: member decks whose size lies within the `[20th, 80th]`
size percentiles (inclusive), falling back to all member decks when that
restriction is empty (`score_df_filtered`). -/
def candidateRows (decks : List MDeck) (matrix : List (List ℕ)) (cards : List String)
    (defTable : DefTable) (c : ℤ) : List (ℕ × Option ℚ × ℕ) :=
  if ((scoreRows decks matrix cards defTable c).filter
      (fun t => decide (sizeP20 decks matrix cards defTable c ≤ (t.2.2 : ℚ)) &&
        decide ((t.2.2 : ℚ) ≤ sizeP80 decks matrix cards defTable c))).isEmpty then
    scoreRows decks matrix cards defTable c
  else
    (scoreRows decks matrix cards defTable c).filter
      (fun t => decide (sizeP20 decks matrix cards defTable c ≤ (t.2.2 : ℚ)) &&
        decide ((t.2.2 : ℚ) ≤ sizeP80 decks matrix cards defTable c))

/-- Rows with a defined (non-NaN) score, as `(label, score)` pairs. -/
def scoredOf (rows : List (ℕ × Option ℚ × ℕ)) : List (ℕ × ℚ) :=
  (rows.filter (fun t => t.2.1.isSome)).map (fun t => (t.1, (t.2.1).getD 0))

/-- Fold keeping the first element of maximal score. -/
def pickMax (x : ℕ × ℚ) (xs : List (ℕ × ℚ)) : ℕ × ℚ :=
  xs.foldl (fun best y => if best.2 < y.2 then y else best) x

/-- Embedding of `Series.idxmax`: label of the first row of maximal score,
NaN scores skipped; `none` (pandas raises) when every score is NaN. -/
def idxmaxFirst (rows : List (ℕ × Option ℚ × ℕ)) : Option ℕ :=
  match scoredOf rows with
  | [] => none
  | x :: xs => some (pickMax x xs).1

/-- Shallow embedding of
`ClusterAnalysisService.calculate_average_decklists`. -/
def calculate_average_decklists (decks : List MDeck) (matrix : List (List ℕ))
    (cards : List String) (defTable : DefTable) (ignore_clusters : List ℤ) :
    Except String (List (ℤ × ℤ)) :=
  match optMapList (fun c =>
      (idxmaxFirst (candidateRows decks matrix cards defTable c)).map
        (fun best =>
          (c, ((clusterMembers decks c).getD best (0, ⟨0, 0, "", "", ""⟩)).2.deckID)))
    ((dedupSortInt (decks.map (fun d => d.clusterID))).filter
      (fun c => !(ignore_clusters.contains c))) with
  | none => .error "attempt to get idxmax of an all-NaN score column"
  | some l => .ok l

theorem mem_enumFrom_snd {α : Type} : ∀ (l : List α) (i : ℕ) (p : ℕ × α),
    p ∈ List.enumFrom i l → p.2 ∈ l ∧ i ≤ p.1 ∧ p.1 < i + l.length := by
  intro l
  induction l with
  | nil => intro i p hp; simp [List.enumFrom] at hp
  | cons x xs ih =>
    intro i p hp
    rw [List.enumFrom] at hp
    rcases List.mem_cons.mp hp with rfl | h
    · exact ⟨by simp, by simp, by simp⟩
    · obtain ⟨h1, h2, h3⟩ := ih (i + 1) p h
      refine ⟨by simp [h1], by omega, ?_⟩
      simp only [List.length_cons]
      omega

theorem pairwise_enumFrom {α : Type} : ∀ (l : List α) (i : ℕ),
    (List.enumFrom i l).Pairwise (fun a b => a.1 < b.1) := by
  intro l
  induction l with
  | nil => intro i; simp [List.enumFrom]
  | cons x xs ih =>
    intro i
    rw [List.enumFrom]
    refine List.pairwise_cons.mpr ⟨?_, ih (i + 1)⟩
    intro p hp
    have := (mem_enumFrom_snd xs (i + 1) p hp).2.1
    show i < p.1
    omega

theorem pickMax_nil (x : ℕ × ℚ) : pickMax x [] = x := rfl

theorem pickMax_cons (x z : ℕ × ℚ) (zs : List (ℕ × ℚ)) :
    pickMax x (z :: zs) = pickMax (if x.2 < z.2 then z else x) zs := rfl

theorem pickMax_mem_max : ∀ (xs : List (ℕ × ℚ)) (x : ℕ × ℚ),
    pickMax x xs ∈ x :: xs ∧ ∀ y ∈ x :: xs, y.2 ≤ (pickMax x xs).2 := by
  intro xs
  induction xs with
  | nil =>
    intro x
    refine ⟨by simp [pickMax_nil], ?_⟩
    intro y hy
    rcases List.mem_cons.mp hy with rfl | h
    · simp [pickMax_nil]
    · simp at h
  | cons z zs ih =>
    intro x
    rw [pickMax_cons]
    by_cases hxz : x.2 < z.2
    · rw [if_pos hxz]
      obtain ⟨hmem, hmax⟩ := ih z
      refine ⟨?_, ?_⟩
      · rcases List.mem_cons.mp hmem with h | h
        · rw [h]; simp
        · simp [h]
      · intro y hy
        rcases List.mem_cons.mp hy with rfl | hy2
        · exact le_trans (le_of_lt hxz) (hmax z (by simp))
        · exact hmax y hy2
    · rw [if_neg hxz]
      obtain ⟨hmem, hmax⟩ := ih x
      refine ⟨?_, ?_⟩
      · rcases List.mem_cons.mp hmem with h | h
        · rw [h]; simp
        · simp [h]
      · intro y hy
        rcases List.mem_cons.mp hy with rfl | hy2
        · exact hmax y (by simp)
        rcases List.mem_cons.mp hy2 with rfl | hy3
        · exact le_trans (le_of_not_lt hxz) (hmax x (by simp))
        · exact hmax y (by simp [hy3])

theorem pickMax_stay_or_gt : ∀ (xs : List (ℕ × ℚ)) (x : ℕ × ℚ),
    pickMax x xs = x ∨ x.2 < (pickMax x xs).2 := by
  intro xs
  induction xs with
  | nil => intro x; left; rfl
  | cons z zs ih =>
    intro x
    rw [pickMax_cons]
    by_cases hxz : x.2 < z.2
    · rw [if_pos hxz]
      right
      exact lt_of_lt_of_le hxz ((pickMax_mem_max zs z).2 z (by simp))
    · rw [if_neg hxz]
      exact ih x

theorem pickMax_first_tie : ∀ (xs : List (ℕ × ℚ)) (x : ℕ × ℚ),
    (x :: xs).Pairwise (fun a b => a.1 < b.1) →
    ∀ y ∈ x :: xs, y.2 = (pickMax x xs).2 → (pickMax x xs).1 ≤ y.1 := by
  intro xs
  induction xs with
  | nil =>
    intro x _ y hy _
    rcases List.mem_cons.mp hy with rfl | h
    · simp [pickMax_nil]
    · simp at h
  | cons z zs ih =>
    intro x hp y hy heq
    rw [pickMax_cons] at heq ⊢
    by_cases hxz : x.2 < z.2
    · rw [if_pos hxz] at heq ⊢
      have hptail : (z :: zs).Pairwise (fun a b => a.1 < b.1) :=
        (List.pairwise_cons.mp hp).2
      rcases List.mem_cons.mp hy with h0 | hy2
      · exfalso
        have hz := (pickMax_mem_max zs z).2 z (by simp)
        rw [h0] at heq
        linarith [heq]
      · exact ih z hptail y hy2 heq
    · rw [if_neg hxz] at heq ⊢
      have hsub : List.Sublist (x :: zs) (x :: z :: zs) :=
        List.Sublist.cons₂ x (List.Sublist.cons z (List.Sublist.refl zs))
      have hpx : (x :: zs).Pairwise (fun a b => a.1 < b.1) :=
        List.Pairwise.sublist hsub hp
      rcases List.mem_cons.mp hy with h0 | hy2
      · rw [h0] at heq ⊢
        exact ih x hpx x (by simp) heq
      rcases List.mem_cons.mp hy2 with h1 | hy3
      · rcases pickMax_stay_or_gt zs x with hst | hgt
        · rw [hst, h1]
          exact le_of_lt ((List.pairwise_cons.mp hp).1 z (by simp))
        · exfalso
          have hz2 : z.2 ≤ x.2 := le_of_not_lt hxz
          rw [h1] at heq
          linarith [heq]
      · exact ih x hpx y (by simp [hy3]) heq

theorem idxmaxFirst_spec (rows : List (ℕ × Option ℚ × ℕ))
    (hp : rows.Pairwise (fun a b => a.1 < b.1)) (b : ℕ)
    (h : idxmaxFirst rows = some b) :
    ∃ s, (b, s) ∈ scoredOf rows ∧ (∀ t ∈ scoredOf rows, t.2 ≤ s) ∧
      (∀ t ∈ scoredOf rows, t.2 = s → b ≤ t.1) := by
  have hps : (scoredOf rows).Pairwise (fun a b => a.1 < b.1) := by
    unfold scoredOf
    apply List.pairwise_map.mpr
    exact List.Pairwise.sublist (List.filter_sublist rows) hp
  unfold idxmaxFirst at h
  rcases hsc : scoredOf rows with _ | ⟨x, xs⟩
  · rw [hsc] at h; simp at h
  · rw [hsc] at h
    obtain rfl : (pickMax x xs).1 = b := by simpa using h
    refine ⟨(pickMax x xs).2, ?_, ?_, ?_⟩
    · exact (pickMax_mem_max xs x).1
    · intro t ht
      exact (pickMax_mem_max xs x).2 t ht
    · intro t ht heq
      rw [hsc] at hps
      exact pickMax_first_tie xs x hps t ht heq

theorem scoreRows_pairwise (decks : List MDeck) (matrix : List (List ℕ))
    (cards : List String) (defTable : DefTable) (c : ℤ) :
    (scoreRows decks matrix cards defTable c).Pairwise (fun a b => a.1 < b.1) := by
  unfold scoreRows
  apply List.pairwise_map.mpr
  exact pairwise_enumFrom (clusterMembers decks c) 0

theorem candidateRows_sub (decks : List MDeck) (matrix : List (List ℕ))
    (cards : List String) (defTable : DefTable) (c : ℤ) :
    ∀ t ∈ candidateRows decks matrix cards defTable c,
      t ∈ scoreRows decks matrix cards defTable c := by
  intro t ht
  unfold candidateRows at ht
  split_ifs at ht
  · exact ht
  · exact List.mem_of_mem_filter ht

theorem candidateRows_pairwise (decks : List MDeck) (matrix : List (List ℕ))
    (cards : List String) (defTable : DefTable) (c : ℤ) :
    (candidateRows decks matrix cards defTable c).Pairwise (fun a b => a.1 < b.1) := by
  unfold candidateRows
  split_ifs
  · exact scoreRows_pairwise decks matrix cards defTable c
  · exact List.Pairwise.sublist (List.filter_sublist _)
      (scoreRows_pairwise decks matrix cards defTable c)

theorem scoreRows_fst_lt (decks : List MDeck) (matrix : List (List ℕ))
    (cards : List String) (defTable : DefTable) (c : ℤ) :
    ∀ t ∈ scoreRows decks matrix cards defTable c,
      t.1 < (clusterMembers decks c).length := by
  intro t ht
  unfold scoreRows at ht
  rcases List.mem_map.mp ht with ⟨p, hp, rfl⟩
  have := (mem_enumFrom_snd (clusterMembers decks c) 0 p hp).2.2
  simpa using this

theorem clusterMembers_spec (decks : List MDeck) (c : ℤ) :
    ∀ p ∈ clusterMembers decks c, p.2 ∈ decks ∧ p.2.clusterID = c := by
  intro p hp
  unfold clusterMembers at hp
  have h1 := List.mem_of_mem_filter hp
  have h2 := (List.mem_filter.mp hp).2
  exact ⟨(mem_enumFrom_snd decks 0 p h1).1, by simpa using h2⟩

/-- C6: whenever `calculate_average_decklists` succeeds, every non-ignored
cluster receives an entry, and every returned deck id belongs to a deck that
is a member of its cluster; the selected deck is the one at the first
(lowest) positional label of maximal mean score among the candidate rows,
where the candidates are the member decks whose size lies within the
`[20th, 80th]` size percentiles, falling back to all member decks when that
restriction is empty. -/
theorem C6_average_decklists (decks : List MDeck) (matrix : List (List ℕ))
    (cards : List String) (defTable : DefTable) (ignore_clusters : List ℤ)
    (m : List (ℤ × ℤ))
    (hok : calculate_average_decklists decks matrix cards defTable ignore_clusters
      = .ok m) :
    (∀ c ∈ dedupSortInt (decks.map (fun d => d.clusterID)),
      c ∉ ignore_clusters → ∃ d, (c, d) ∈ m) ∧
    (∀ c d, (c, d) ∈ m →
      (∃ deck ∈ decks, deck.clusterID = c ∧ deck.deckID = d) ∧
      ∃ b, idxmaxFirst (candidateRows decks matrix cards defTable c) = some b ∧
        d = ((clusterMembers decks c).getD b (0, ⟨0, 0, "", "", ""⟩)).2.deckID ∧
        ∃ s, (b, s) ∈ scoredOf (candidateRows decks matrix cards defTable c) ∧
          (∀ t ∈ scoredOf (candidateRows decks matrix cards defTable c), t.2 ≤ s) ∧
          (∀ t ∈ scoredOf (candidateRows decks matrix cards defTable c),
            t.2 = s → b ≤ t.1)) ∧
    (∀ c2, candidateRows decks matrix cards defTable c2 =
      if ((scoreRows decks matrix cards defTable c2).filter
          (fun t => decide (sizeP20 decks matrix cards defTable c2 ≤ (t.2.2 : ℚ)) &&
            decide ((t.2.2 : ℚ) ≤ sizeP80 decks matrix cards defTable c2))).isEmpty
      then scoreRows decks matrix cards defTable c2
      else (scoreRows decks matrix cards defTable c2).filter
          (fun t => decide (sizeP20 decks matrix cards defTable c2 ≤ (t.2.2 : ℚ)) &&
            decide ((t.2.2 : ℚ) ≤ sizeP80 decks matrix cards defTable c2))) := by
  have hsome : optMapList (fun c =>
      (idxmaxFirst (candidateRows decks matrix cards defTable c)).map
        (fun best =>
          (c, ((clusterMembers decks c).getD best (0, ⟨0, 0, "", "", ""⟩)).2.deckID)))
      ((dedupSortInt (decks.map (fun d => d.clusterID))).filter
        (fun c => !(ignore_clusters.contains c))) = some m := by
    unfold calculate_average_decklists at hok
    split at hok
    · simp at hok
    next l hl =>
      obtain rfl : l = m := by simpa using hok
      exact hl
  refine ⟨?_, ?_, fun c2 => rfl⟩
  · intro c hc hcnot
    have hcp : c ∈ (dedupSortInt (decks.map (fun d => d.clusterID))).filter
        (fun c2 => !(ignore_clusters.contains c2)) :=
      List.mem_filter.mpr ⟨hc, by simpa using hcnot⟩
    obtain ⟨y, hy, hfy⟩ := optMapList_mem_forward _ _ _ hsome c hcp
    rcases Option.map_eq_some'.mp hfy with ⟨best, hbest, hyv⟩
    subst hyv
    exact ⟨_, hy⟩
  · intro c d hcd
    obtain ⟨a, ha, hfa⟩ := optMapList_mem_backward _ _ _ hsome (c, d) hcd
    rcases Option.map_eq_some'.mp hfa with ⟨best, hbest, hav⟩
    have hac : a = c := congrArg Prod.fst hav
    subst hac
    have hdd : d = ((clusterMembers decks a).getD best (0, ⟨0, 0, "", "", ""⟩)).2.deckID :=
      (congrArg Prod.snd hav).symm
    obtain ⟨s, hmem, hmax, htie⟩ := idxmaxFirst_spec _
      (candidateRows_pairwise decks matrix cards defTable a) best hbest
    have hrow : ∃ t ∈ candidateRows decks matrix cards defTable a, t.1 = best := by
      unfold scoredOf at hmem
      rcases List.mem_map.mp hmem with ⟨t, htf, htv⟩
      exact ⟨t, List.mem_of_mem_filter htf, congrArg Prod.fst htv⟩
    obtain ⟨t, htc, htb⟩ := hrow
    have htl : best < (clusterMembers decks a).length := by
      rw [← htb]
      exact scoreRows_fst_lt decks matrix cards defTable a t
        (candidateRows_sub decks matrix cards defTable a t htc)
    have hgetd : (clusterMembers decks a).getD best (0, ⟨0, 0, "", "", ""⟩)
        ∈ clusterMembers decks a := by
      rw [List.getD_eq_getElem _ _ htl]
      exact List.getElem_mem htl
    obtain ⟨hdeckmem, hdeckc⟩ := clusterMembers_spec decks a _ hgetd
    exact ⟨⟨_, hdeckmem, hdeckc, hdd.symm⟩, best, hbest, hdd, s, hmem, hmax, htie⟩

/-- C6 witness input: two decks in cluster 0 (sizes 1 and 2) and one in
cluster 1, with play rates making the first cluster-0 deck the best
scorer. -/
def decksC6 : List MDeck :=
  [⟨10, 0, "A", "", ""⟩, ⟨11, 0, "B", "", ""⟩, ⟨12, 1, "C", "", ""⟩]

def defTableC6 : DefTable :=
  ⟨false, [⟨0, "x", 1/2, 0⟩, ⟨0, "y", 1/4, 0⟩, ⟨1, "y", 1, 0⟩]⟩

/-- Witness for C6 at the concrete input: the call returns
`[(0, 10), (1, 12)]`; cluster 0 receives an entry and deck 10 is a member of
cluster 0. -/
theorem C6_average_decklists_witness :
    (∃ d, ((0:ℤ), d) ∈ [((0:ℤ), (10:ℤ)), (1, 12)]) ∧
    (∃ deck ∈ decksC6, deck.clusterID = 0 ∧ deck.deckID = 10) :=
  have h := C6_average_decklists decksC6 [[1, 0], [1, 1], [0, 1]] ["x", "y"]
    defTableC6 [] [(0, 10), (1, 12)] (by with_unfolding_all decide)
  ⟨h.1 0 (by with_unfolding_all decide) (by decide),
   (h.2.1 0 10 (by decide)).1⟩

end CommanderMap
